import Mathlib

/-!
# Verification of the incremental vue-flow diagram layout

Shallow embedding of the repository's layout code:

* `src/unnamed/part_001` — the unified incremental algorithm
  (`computeOrdering`, `layoutContainerChildren`, `layoutRanks`, `addToGraph`);
* `src/src/App.vue` — two `addSubGraph` variants (the prefix-isolating one and
  the share-nodes/temp-root one) together with their helpers;
* `src/src/data.js` — layout constants.

JavaScript numbers used for geometry are modelled as `Int` (all arithmetic in
the source on the claim-relevant paths is integer arithmetic).  JavaScript
`Map`/`Set` objects are modelled as association lists / lists with
insertion-order append semantics, matching JS iteration order.  The external
`dagre` library is not part of the repository; where a variant consults it,
the call is modelled explicitly and the modelling decision is documented at
the definition.
-/

namespace VueFlow

/-- 2-D point, top-left coordinates (JS `{x, y}`). -/
structure Pos where
  x : Int
  y : Int
deriving DecidableEq, Repr

/-- Fragment node description (`{id, width?, height?}`), `src/src/data.js` shape.
`none` models an absent (`undefined`) dimension. -/
structure FragNode where
  id : String
  width : Option Int := none
  height : Option Int := none
deriving DecidableEq, Repr

/-- Fragment edge description (`{source, target}`). -/
structure FragEdge where
  source : String
  target : String
deriving DecidableEq, Repr

/-- Fragment container description (`{id, childIds}`). -/
structure FragContainer where
  id : String
  childIds : List String
deriving DecidableEq, Repr

/-- An input batch `{nodes, edges, containers}`. -/
structure Fragment where
  nodes : List FragNode := []
  edges : List FragEdge := []
  containers : List FragContainer := []
deriving DecidableEq, Repr

/-- A vue-flow node record as built by the insertion code.  Style fields that
the layout logic reads back (`style.border`, `style.width`, `style.height`)
are modelled as dedicated fields; purely visual style entries are not
observable by any claim and are omitted. -/
structure FlowNode where
  id : String
  type : String := "default"
  position : Pos
  width : Option Int := none
  height : Option Int := none
  label : String := ""
  parentNode : Option String := none
  extentParent : Bool := false
  draggable : Bool := true
  selectable : Bool := false
  styleBorder : Bool := false
  styleWidth : Option Int := none
  styleHeight : Option Int := none
  styleDashedBorder : Bool := false
deriving DecidableEq, Repr

/-- A vue-flow edge record as built by the insertion code. -/
structure FlowEdge where
  id : String
  source : String
  target : String
  type : String := "bezier"
  animated : Bool := false
  sourcePosition : Option String := none
  targetPosition : Option String := none
  styleDashed : Bool := false
deriving DecidableEq, Repr

/-- The canvas collections mutated by `addToGraph` (`nodes.value`, `edges.value`). -/
structure CanvasState where
  nodes : List FlowNode := []
  edges : List FlowEdge := []
deriving DecidableEq, Repr

/-! ## Layout constants (`data.js` and the component `data()` blocks) -/

def NODE_WIDTH : Int := 160
def NODE_HEIGHT : Int := 48
def RANK_GAP : Int := 80
def NODE_GAP : Int := 50
def CONTAINER_PADDING : Int := 20
def CONTAINER_CHILD_GAP : Int := 50

/-! ## JavaScript-semantics helpers -/

/-- JS `v || d` on an optional number: both `undefined` and `0` are falsy. -/
def jsOr (v : Option Int) (d : Int) : Int :=
  match v with
  | none => d
  | some n => if n = 0 then d else n

/-- First-match association-list lookup (JS `Map.get` for maps that are only
ever written once per key, which is the case for every map the code builds). -/
def alookup {κ α : Type} [DecidableEq κ] (m : List (κ × α)) (k : κ) : Option α :=
  (m.find? (fun p => p.1 = k)).map (·.2)

/-- Deduplicate keeping the first occurrence (JS `Set`/keyed-map insertion
order), relative to already-seen elements. -/
def dedupFirstAux {α : Type} [DecidableEq α] (seen : List α) : List α → List α
  | [] => []
  | x :: xs =>
    if seen.contains x then dedupFirstAux seen xs
    else x :: dedupFirstAux (seen ++ [x]) xs

/-- Deduplicate keeping the first occurrence (JS `Set` insertion order). -/
def dedupFirst {α : Type} [DecidableEq α] (l : List α) : List α :=
  dedupFirstAux [] l

/-- Insert into a stable ascending sort by key (ties keep earlier elements first),
modelling JS `Array.prototype.sort` with a numeric comparator (stable). -/
def insertByKey {α : Type} (key : α → Int) (a : α) : List α → List α
  | [] => [a]
  | b :: bs => if key b < key a then b :: insertByKey key a bs else a :: b :: bs

/-- Stable ascending sort by an integer key. -/
def stableSortByKey {α : Type} (key : α → Int) : List α → List α
  | [] => []
  | a :: as => insertByKey key a (stableSortByKey key as)

/-! ## `computeOrdering` (src/unnamed/part_001, lines 38–177)

The dagre graph `g` only contributes its *structure* to the rank computation
(`g.nodes()`, `g.edges()`, `g.outEdges(...)`, all in insertion order; duplicate
`setNode`/`setEdge` calls overwrite and keep the first position).  The BFS that
assigns ranks is the code's own (lines 100–150); dagre's `rank` property is
deliberately not used by the source ("Dagre doesn't always set 'rank'").  -/

/-- Ids of nodes that are not children of any container (lines 44–50). -/
def mainNodeIds (allNodes : List FragNode) (containers : List FragContainer) : List String :=
  (allNodes.filter (fun n => ¬ containers.any (fun c => c.childIds.contains n.id))).map (·.id)

/-- Insertion order of `g.setNode` calls: main nodes first, then containers
(lines 44–55); duplicates keep the first position. -/
def gNodeIds (allNodes : List FragNode) (containers : List FragContainer) : List String :=
  dedupFirst (mainNodeIds allNodes containers ++ containers.map (·.id))

/-- `childToContainer` map (lines 58–63): later `Map.set` overwrites, so the
last container listing a child wins. -/
def childToContainer (containers : List FragContainer) (c : String) : Option String :=
  (containers.reverse.find? (fun ct => ct.childIds.contains c)).map (·.id)

/-- Rewrite an edge endpoint to its owning container, if any (lines 71–79). -/
def mapEndpoint (containers : List FragContainer) (s : String) : String :=
  (childToContainer containers s).getD s

/-- The guard of lines 82–85: the (rewritten) endpoint must be a main node or a
container id. -/
def endpointIsMain (allNodes : List FragNode) (containers : List FragContainer)
    (s : String) : Bool :=
  (mainNodeIds allNodes containers).contains s ∨ containers.any (fun c => c.id = s)

/-- The edges actually added to `g` (lines 66–89), endpoints rewritten,
self-loops dropped, in insertion order. -/
def keptEdges (allNodes : List FragNode) (allEdges : List (String × String))
    (containers : List FragContainer) : List (String × String) :=
  allEdges.filterMap (fun e =>
    let s := mapEndpoint containers e.1
    let t := mapEndpoint containers e.2
    if endpointIsMain allNodes containers s ∧ endpointIsMain allNodes containers t ∧ ¬ s = t
    then some (s, t) else none)

/-- The dagre graph's edge set: `g.setEdge` on an existing pair overwrites, so
parallel duplicates collapse onto the first occurrence. -/
def filteredEdges (allNodes : List FragNode) (allEdges : List (String × String))
    (containers : List FragContainer) : List (String × String) :=
  dedupFirst (keptEdges allNodes allEdges containers)

/-- `g.outEdges(nodeId)` targets, in edge insertion order (line 117). -/
def outTargets (edges : List (String × String)) (id : String) : List String :=
  (edges.filter (fun e => e.1 = id)).map (·.2)

/-- `hasIncoming` (lines 130–133). -/
def hasIncoming (edges : List (String × String)) (id : String) : Bool :=
  edges.any (fun e => e.2 = id)

/-- The BFS working state: the `visited` set and the `ranks` map (lines 102–103),
both in insertion order. -/
structure BfsSt where
  visited : List String
  ranks : List (String × Nat)
deriving DecidableEq, Repr

/-- The inner BFS worklist loop of `bfsFromRoot` (lines 112–126).  The queue is
popped from the front (`head++`), and each out-edge target that is not yet
visited is marked visited, given rank `rank + 1` and appended to the queue.
`fuel` bounds the number of pops; since every enqueue first marks its node
visited, the number of pops never exceeds the number of graph nodes, and every
call site passes fuel exceeding that bound, so the model agrees with the
JavaScript loop, which always terminates.  `bfsEnqueueStep` is the body of the
out-edge scan (lines 117–125). -/
def bfsEnqueueStep (rk : Nat) (acc : List (String × Nat) × BfsSt) (tgt : String) :
    List (String × Nat) × BfsSt :=
  if acc.2.visited.contains tgt then acc
  else (acc.1 ++ [(tgt, rk + 1)],
        ⟨acc.2.visited ++ [tgt], acc.2.ranks ++ [(tgt, rk + 1)]⟩)

def bfsLoop (edges : List (String × String)) :
    Nat → List (String × Nat) → BfsSt → BfsSt
  | 0, _, st => st
  | _ + 1, [], st => st
  | fuel + 1, (id, rk) :: rest, st =>
    let next := (outTargets edges id).foldl (bfsEnqueueStep rk) (rest, st)
    bfsLoop edges fuel next.1 next.2

/-- `bfsFromRoot(rootId, 0)` (lines 107–127): mark the root visited with rank 0
and run the worklist. -/
def bfsFromRoot (edges : List (String × String)) (fuel : Nat) (root : String)
    (st : BfsSt) : BfsSt :=
  bfsLoop edges fuel [(root, 0)] ⟨st.visited ++ [root], st.ranks ++ [(root, 0)]⟩

/-- The roots loop (lines 136–141): every not-yet-visited node with no incoming
filtered edge starts a BFS at rank 0. -/
def rootsStep (es : List (String × String)) (fuel : Nat) (st : BfsSt) (id : String) :
    BfsSt :=
  if ¬ st.visited.contains id ∧ ¬ hasIncoming es id
  then bfsFromRoot es fuel id st else st

/-- The roots loop assembled from its step. -/
def bfsPhase (allNodes : List FragNode) (allEdges : List (String × String))
    (containers : List FragContainer) : BfsSt :=
  let ids := gNodeIds allNodes containers
  let es := filteredEdges allNodes allEdges containers
  ids.foldl (rootsStep es (ids.length + 1)) ⟨[], []⟩

/-- The defensive pass (lines 144–150): any node still unvisited gets rank 0. -/
def defensiveStep (st : BfsSt) (id : String) : BfsSt :=
  if st.visited.contains id then st
  else ⟨st.visited ++ [id], st.ranks ++ [(id, 0)]⟩

/-- The rank state after the defensive pass. -/
def computeRanksSt (allNodes : List FragNode) (allEdges : List (String × String))
    (containers : List FragContainer) : BfsSt :=
  (gNodeIds allNodes containers).foldl defensiveStep
    (bfsPhase allNodes allEdges containers)

/-- The final `ranks` map of `computeOrdering`. -/
def ranksOf (allNodes : List FragNode) (allEdges : List (String × String))
    (containers : List FragContainer) : List (String × Nat) :=
  (computeRanksSt allNodes allEdges containers).ranks

/-- `ranks.get(nodeId) ?? 0` (line 155). -/
def rankLookup (rks : List (String × Nat)) (id : String) : Nat :=
  (alookup rks id).getD 0

/-- Append `id` to the bucket of rank `rk`, creating the bucket at the end of
the map if absent (lines 158–161; JS `Map` iterates in insertion order). -/
def addToRankMap (m : List (Nat × List String)) (rk : Nat) (id : String) :
    List (Nat × List String) :=
  if m.any (fun b => b.1 = rk) then
    m.map (fun b => if b.1 = rk then (b.1, b.2 ++ [id]) else b)
  else m ++ [(rk, [id])]

/-- The `rankMap` built by `computeOrdering` (lines 152–168).  Within a rank the
source sorts by dagre's crossing-minimisation `order` property via a stable
sort (`node.order ?? 0`); that property is output of the external dagre
library, which we model by its code fallback `?? 0` — all keys equal, so the
stable sort keeps graph insertion order.  No settled claim depends on the
within-rank permutation (see the comments at the concrete counterexamples). -/
def rankMapOf (allNodes : List FragNode) (allEdges : List (String × String))
    (containers : List FragContainer) : List (Nat × List String) :=
  let rks := ranksOf allNodes allEdges containers
  (gNodeIds allNodes containers).foldl
    (fun m id => addToRankMap m (rankLookup rks id) id) []

/-! ## `layoutContainerChildren` (src/unnamed/part_001, lines 180–246) -/

/-- The BFS over a container's internal edges that assigns each child a visit
order (lines 198–217).  The queue holds child *nodes*; the visited check
happens at pop time, the order counter is assigned on first visit, and each
out-edge target that is not yet visited is looked up in `childNodes` and
enqueued.  (When a `childId` has no node entry the JS `find` yields
`undefined` and the loop would throw on popping it; the model skips such
targets — no settled claim exercises that malformed input.)  `fuel` bounds
pops; each edge is scanned at most once and each root enqueued once, so
`childNodes.length + childEdges.length + 1` always suffices. -/
def containerBfs (childNodes : List FragNode) (childEdges : List (String × String)) :
    Nat → List FragNode → List String → List (String × Int) → Int → List (String × Int)
  | 0, _, _, ord, _ => ord
  | _ + 1, [], _, ord, _ => ord
  | fuel + 1, cur :: rest, visited, ord, nextOrd =>
    if visited.contains cur.id then
      containerBfs childNodes childEdges fuel rest visited ord nextOrd
    else
      let visited' := visited ++ [cur.id]
      let ord' := ord ++ [(cur.id, nextOrd)]
      let queue' := (childEdges.filter (fun e => e.1 = cur.id)).foldl
        (fun q e =>
          if visited'.contains e.2 then q
          else
            match childNodes.find? (fun n => n.id = e.2) with
            | some n => q ++ [n]
            | none => q)
        rest
      containerBfs childNodes childEdges fuel queue' visited' ord' (nextOrd + 1)

/-- The child ordering of `layoutContainerChildren` (lines 186–225): when the
container has internal edges, children are stably sorted by BFS visit order
(children never visited get key 999, i.e. fall back to list order after the
visited ones); with no internal edges the original list order is kept. -/
def sortedContainerChildren (childNodes : List FragNode)
    (childEdges : List (String × String)) : List FragNode :=
  if childEdges.length > 0 then
    let rootNodes := childNodes.filter (fun ch => ¬ childEdges.any (fun e => e.2 = ch.id))
    let childOrder := containerBfs childNodes childEdges
      (childNodes.length + childEdges.length + 1) rootNodes [] [] 0
    stableSortByKey (fun n => (alookup childOrder n.id).getD 999) childNodes
  else childNodes

/-- Result of the container interior layout: container-relative child
positions and the container's computed size. -/
structure ContainerLayout where
  childPositions : List (String × Pos)
  width : Int
  height : Int
deriving DecidableEq, Repr

/-- One step of the child-placement loop (lines 227–240): place the child at
the fixed left inset and the running `currentY`, track the widest child, and
advance `currentY` by the child height plus the gap. -/
def containerChildStep (acc : List (String × Pos) × Int × Int) (child : FragNode) :
    List (String × Pos) × Int × Int :=
  let childWidth := jsOr child.width NODE_WIDTH
  let childHeight := jsOr child.height NODE_HEIGHT
  (acc.1 ++ [(child.id, ⟨CONTAINER_PADDING, acc.2.2⟩)],
   max acc.2.1 childWidth,
   acc.2.2 + childHeight + CONTAINER_CHILD_GAP)

/-- `layoutContainerChildren` (lines 180–246): the ordered children are stacked
in a single vertical column starting at `y = CONTAINER_PADDING`, all at
`x = CONTAINER_PADDING`, each followed by `CONTAINER_CHILD_GAP`; the container
size is `maxWidth + 2·padding` by `currentY - gap + padding`. -/
def layoutContainerChildren (childNodes : List FragNode)
    (childEdges : List (String × String)) : ContainerLayout :=
  let sorted := sortedContainerChildren childNodes childEdges
  let res := sorted.foldl containerChildStep ([], 0, CONTAINER_PADDING)
  { childPositions := res.1
    width := res.2.1 + CONTAINER_PADDING * 2
    height := res.2.2 - CONTAINER_CHILD_GAP + CONTAINER_PADDING }

/-! ## `layoutRanks` (src/unnamed/part_001, lines 249–384) -/

/-- The render height the incremental code reads back from an existing record:
`node.height || parseInt(node.style.height) || NODE_HEIGHT` (line 268). -/
def nodeRenderHeight (n : FlowNode) : Int :=
  jsOr n.height (jsOr n.styleHeight NODE_HEIGHT)

/-- The render width read back from an existing record:
`node.width || parseInt(node.style.width) || NODE_WIDTH`. -/
def nodeRenderWidth (n : FlowNode) : Int :=
  jsOr n.width (jsOr n.styleWidth NODE_WIDTH)

/-- `maxExistingY` (lines 263–272): bottom of the lowest existing top-level
record, clamped at 0.  NOTE: the source computes this value "to determine
starting Y for new ranks" (its own comment) but then never uses it —
`currentRankY` starts at 0.  It is kept as a standalone definition because the
no-overlap analysis turns on this dead computation. -/
def maxExistingYOf (existingNodes : List FlowNode) : Int :=
  if existingNodes.length > 0 then
    ((existingNodes.filter (fun n => n.parentNode = none)).map
      (fun n => n.position.y + nodeRenderHeight n)).foldl max 0
  else 0

/-- Output of `layoutRanks`: absolute positions for every ranked element and
the per-container interior layouts. -/
structure LayoutResult where
  nodePositions : List (String × Pos)
  containerData : List (String × ContainerLayout)
deriving DecidableEq, Repr

/-- The horizontal-cursor seeding pass of one rank (lines 287–307): the cursor
starts at 0 and is pushed past the right edge of every existing element of the
rank (container widths use the `NODE_WIDTH` placeholder here — the source's
first-pass placeholder branch assigns nothing). -/
def seedCurrentX (nodesInRank : List String) (existingPositions : List (String × Pos))
    (allNodes : List FragNode) (containers : List FragContainer)
    (existingCount : Nat) : Int :=
  if existingCount > 0 then
    nodesInRank.foldl
      (fun cx id =>
        if (alookup existingPositions id).isSome then
          match alookup existingPositions id with
          | some p =>
            let width :=
              if (containers.find? (fun c => c.id = id)).isSome then NODE_WIDTH
              else
                match allNodes.find? (fun n => n.id = id) with
                | some n => jsOr n.width NODE_WIDTH
                | none => NODE_WIDTH
            let rightX := p.x + width
            if rightX > cx then rightX + NODE_GAP else cx
          | none => cx
        else cx)
      0
  else 0

/-- The container interior layout computed for one container inside the rank
loop (the `childNodes` / `childEdges` / `layoutContainerChildren` lines
312–317). -/
def containerLayoutFor (allNodes : List FragNode) (allEdges : List (String × String))
    (c : FragContainer) : ContainerLayout :=
  let childNodes := allNodes.filter (fun n => c.childIds.contains n.id)
  let childEdges := allEdges.filter
    (fun e => c.childIds.contains e.1 ∧ c.childIds.contains e.2)
  layoutContainerChildren childNodes childEdges

/-- The body of the first pass over one rank (lines 309–337). -/
def rankFirstStep (allNodes : List FragNode) (containers : List FragContainer)
    (allEdges : List (String × String)) (existingPositions : List (String × Pos))
    (acc : List (String × ContainerLayout) × Int × Int) (id : String) :
    List (String × ContainerLayout) × Int × Int :=
  match containers.find? (fun c => c.id = id) with
  | some c =>
    let cl := containerLayoutFor allNodes allEdges c
    let cd' := acc.1 ++ [(c.id, cl)]
    let mh := max acc.2.1 cl.height
    let cx :=
      match alookup existingPositions c.id with
      | some p =>
        let rightX := p.x + cl.width
        if rightX > acc.2.2 then rightX + NODE_GAP else acc.2.2
      | none => acc.2.2
    (cd', mh, cx)
  | none =>
    match allNodes.find? (fun n => n.id = id) with
    | some n => (acc.1, max acc.2.1 (jsOr n.height NODE_HEIGHT), acc.2.2)
    | none => acc

/-- The first pass of one rank (lines 309–337): compute container layouts,
record them in `containerData`, track the tallest element, and push the cursor
past existing containers (now with their real width). -/
def rankFirstPass (nodesInRank : List String) (allNodes : List FragNode)
    (containers : List FragContainer) (allEdges : List (String × String))
    (existingPositions : List (String × Pos))
    (cd : List (String × ContainerLayout)) (cx0 : Int) :
    List (String × ContainerLayout) × Int × Int :=
  nodesInRank.foldl (rankFirstStep allNodes containers allEdges existingPositions)
    (cd, 0, cx0)

/-- The body of the placement pass over one rank (lines 339–377). -/
def rankSecondStep (allNodes : List FragNode) (containers : List FragContainer)
    (existingPositions : List (String × Pos)) (cd : List (String × ContainerLayout))
    (existingCount : Nat) (rankY : Int)
    (acc : List (String × Pos) × Int) (id : String) : List (String × Pos) × Int :=
  match containers.find? (fun c => c.id = id) with
  | some c =>
    match alookup existingPositions c.id with
    | some p => (acc.1 ++ [(c.id, p)], acc.2)
    | none =>
      match alookup cd c.id with
      | some cl =>
        (acc.1 ++ [(c.id, ⟨acc.2, rankY⟩)], acc.2 + cl.width + NODE_GAP)
      | none => acc
  | none =>
    match allNodes.find? (fun n => n.id = id) with
    | some n =>
      if (alookup existingPositions id).isSome ∧ existingCount > 0 then
        match alookup existingPositions id with
        | some p => (acc.1 ++ [(id, p)], acc.2)
        | none => acc
      else
        (acc.1 ++ [(id, ⟨acc.2, rankY⟩)], acc.2 + jsOr n.width NODE_WIDTH + NODE_GAP)
    | none => acc

/-- The placement pass of one rank (lines 339–377): existing elements have
their stored position copied into the output; new elements are placed at the
cursor and advance it by their width plus `NODE_GAP`. -/
def rankSecondPass (nodesInRank : List String) (allNodes : List FragNode)
    (containers : List FragContainer) (existingPositions : List (String × Pos))
    (cd : List (String × ContainerLayout)) (existingCount : Nat)
    (posAcc : List (String × Pos)) (cx1 : Int) (rankY : Int) :
    List (String × Pos) × Int :=
  nodesInRank.foldl
    (rankSecondStep allNodes containers existingPositions cd existingCount rankY)
    (posAcc, cx1)

/-- One iteration of the rank loop of `layoutRanks` (lines 280–384). -/
def layoutRankStep (rankMap : List (Nat × List String)) (allNodes : List FragNode)
    (containers : List FragContainer) (allEdges : List (String × String))
    (existingPositions : List (String × Pos)) (existingCount : Nat)
    (st : List (String × Pos) × List (String × ContainerLayout) × Int) (rk : Nat) :
    List (String × Pos) × List (String × ContainerLayout) × Int :=
  let nodesInRank := (alookup rankMap rk).getD []
  let cx0 := seedCurrentX nodesInRank existingPositions allNodes containers
    existingCount
  let p1 := rankFirstPass nodesInRank allNodes containers allEdges
    existingPositions st.2.1 cx0
  let p2 := rankSecondPass nodesInRank allNodes containers existingPositions
    p1.1 existingCount st.1 p1.2.2 st.2.2
  (p2.1, p1.1, st.2.2 + p1.2.1 + RANK_GAP)

/-- `layoutRanks` (lines 249–384): ranks are processed in increasing order;
`currentRankY` starts at 0 (the computed `maxExistingYOf` is dead code in the
source) and advances by each rank's tallest element plus `RANK_GAP`. -/
def layoutRanks (rankMap : List (Nat × List String)) (allNodes : List FragNode)
    (containers : List FragContainer) (existingNodes : List FlowNode)
    (allEdges : List (String × String)) : LayoutResult :=
  let existingPositions : List (String × Pos) :=
    (existingNodes.filter (fun n => n.parentNode = none)).map
      (fun n => (n.id, n.position))
  let ranksAsc := stableSortByKey (fun rk : Nat => (rk : Int)) (rankMap.map (·.1))
  let final := ranksAsc.foldl
    (layoutRankStep rankMap allNodes containers allEdges existingPositions
      existingNodes.length)
    ([], [], 0)
  { nodePositions := final.1, containerData := final.2.1 }

/-! ## `addToGraph` (src/unnamed/part_001, lines 390–580)

The entry point takes an explicit disambiguation prefix (the `null` default
draws from the monotone `graphInstanceCounter`; the claims quantify over the
prefix, so it is an argument here). -/

/-- The node record pushed for a new non-container node (lines 502–510). -/
def regularNodeRecord (n : FragNode) (pos : Pos) : FlowNode :=
  { id := n.id, type := "default", position := pos,
    width := some (jsOr n.width NODE_WIDTH), height := some (jsOr n.height NODE_HEIGHT),
    label := n.id, draggable := true }

/-- The node record pushed for a new container (lines 522–538). -/
def containerNodeRecord (c : FragContainer) (pos : Pos) (cl : ContainerLayout) : FlowNode :=
  { id := c.id, type := "default", position := pos,
    width := some cl.width, height := some cl.height,
    label := c.id, selectable := true, draggable := true,
    styleBorder := true, styleWidth := some cl.width, styleHeight := some cl.height }

/-- The node record pushed for a new container child (lines 545–553). -/
def childNodeRecord (childId : String) (pos : Pos) (containerId : String) : FlowNode :=
  { id := childId, type := "default", position := pos, label := childId,
    parentNode := some containerId, extentParent := true, draggable := false }

/-- The prefixed fragment nodes (lines 397–400). -/
def prefixedNodes (frag : Fragment) (pfx : String) : List FragNode :=
  frag.nodes.map (fun n => { n with id := pfx ++ n.id })

/-- The prefixed fragment edges (lines 402–406). -/
def prefixedEdges (frag : Fragment) (pfx : String) : List FragEdge :=
  frag.edges.map (fun e => FragEdge.mk (pfx ++ e.source) (pfx ++ e.target))

/-- The prefixed fragment containers (lines 408–412). -/
def prefixedContainers (frag : Fragment) (pfx : String) : List FragContainer :=
  frag.containers.map
    (fun c => FragContainer.mk (pfx ++ c.id) (c.childIds.map (fun i => pfx ++ i)))

/-- `existingContainerIds` (lines 416–418): ids of canvas records rendered with
a container border. -/
def existingContainerIdsOf (s : CanvasState) : List String :=
  (s.nodes.filter (·.styleBorder)).map (·.id)

/-- `nodesToAdd` (line 421). -/
def nodesToAddOf (frag : Fragment) (pfx : String) (s : CanvasState) : List FragNode :=
  (prefixedNodes frag pfx).filter (fun n => ¬ (s.nodes.map (·.id)).contains n.id)

/-- `containersToAdd` (line 422). -/
def containersToAddOf (frag : Fragment) (pfx : String) (s : CanvasState) :
    List FragContainer :=
  (prefixedContainers frag pfx).filter
    (fun c => ¬ (existingContainerIdsOf s).contains c.id)

/-- `allNodes` (lines 434–441): existing top-level records re-described as
fragment nodes, then the new nodes. -/
def allNodesOf (frag : Fragment) (pfx : String) (s : CanvasState) : List FragNode :=
  (s.nodes.filter (fun n => n.parentNode = none)).map
    (fun n => { id := n.id, width := some (jsOr n.width NODE_WIDTH),
                height := some (jsOr n.height NODE_HEIGHT) })
  ++ nodesToAddOf frag pfx s

/-- `allContainers` (lines 443–453): containers re-derived from bordered canvas
records (children = records parented to them), then the new containers. -/
def allContainersOf (frag : Fragment) (pfx : String) (s : CanvasState) :
    List FragContainer :=
  (s.nodes.filter (·.styleBorder)).map
    (fun n => { id := n.id,
                childIds := (s.nodes.filter (fun ch => ch.parentNode = some n.id)).map (·.id) })
  ++ containersToAddOf frag pfx s

/-- `allEdges` (line 455). -/
def allEdgesOf (frag : Fragment) (pfx : String) (s : CanvasState) :
    List (String × String) :=
  s.edges.map (fun e => (e.source, e.target))
  ++ (prefixedEdges frag pfx).map (fun e => (e.source, e.target))

/-- Phases 1–2 of `addToGraph` (lines 457–477): ordering, then placement. -/
def layoutOf (frag : Fragment) (pfx : String) (s : CanvasState) : LayoutResult :=
  layoutRanks
    (rankMapOf (allNodesOf frag pfx s) (allEdgesOf frag pfx s) (allContainersOf frag pfx s))
    (allNodesOf frag pfx s) (allContainersOf frag pfx s) s.nodes (allEdgesOf frag pfx s)

/-- One step of the new-regular-node loop (lines 496–513). -/
def addNodeStep (lr : LayoutResult) (allContainers : List FragContainer)
    (acc : List FlowNode × List String) (node : FragNode) :
    List FlowNode × List String :=
  match alookup lr.nodePositions node.id with
  | some pos =>
    if ¬ allContainers.any (fun c => c.childIds.contains node.id)
        ∧ ¬ (allContainers.map (·.id)).contains node.id
        ∧ ¬ acc.2.contains node.id then
      (acc.1 ++ [regularNodeRecord node pos], acc.2 ++ [node.id])
    else acc
  | none => acc

/-- One step of the container-children loop (lines 542–556). -/
def addChildStep (cl : ContainerLayout) (containerId : String)
    (acc2 : List FlowNode × List String) (childId : String) :
    List FlowNode × List String :=
  match alookup cl.childPositions childId with
  | some cp =>
    if ¬ acc2.2.contains childId then
      (acc2.1 ++ [childNodeRecord childId cp containerId], acc2.2 ++ [childId])
    else acc2
  | none => acc2

/-- One step of the new-container loop (lines 516–558). -/
def addContainerStep (lr : LayoutResult) (acc : List FlowNode × List String)
    (c : FragContainer) : List FlowNode × List String :=
  match alookup lr.nodePositions c.id, alookup lr.containerData c.id with
  | some pos, some cl =>
    if ¬ acc.2.contains c.id then
      c.childIds.foldl (addChildStep cl c.id)
        (acc.1 ++ [containerNodeRecord c pos cl], acc.2 ++ [c.id])
    else acc
  | _, _ => acc

/-- One step of the new-edge loop (lines 561–573): no endpoint check in this
variant. -/
def addEdgeStep (acc : List FlowEdge × List String) (e : FragEdge) :
    List FlowEdge × List String :=
  let edgeId := "edge-" ++ e.source ++ "-" ++ e.target
  if ¬ acc.2.contains edgeId then
    (acc.1 ++ [{ id := edgeId, source := e.source, target := e.target,
                 type := "bezier", animated := false }],
     acc.2 ++ [edgeId])
  else acc

/-- `addToGraph` (lines 390–580): prefix the fragment, merge with the canvas,
rank and place, then append only the genuinely new records. -/
def addToGraph (frag : Fragment) (pfx : String) (s : CanvasState) : CanvasState :=
  let lr := layoutOf frag pfx s
  let st1 := (nodesToAddOf frag pfx s).foldl
    (addNodeStep lr (allContainersOf frag pfx s)) (s.nodes, s.nodes.map (·.id))
  let st2 := (containersToAddOf frag pfx s).foldl (addContainerStep lr) st1
  let eFin := (prefixedEdges frag pfx).foldl addEdgeStep (s.edges, s.edges.map (·.id))
  { nodes := st2.1, edges := eFin.1 }

/-! ## Shared string helpers for the App.vue variants -/

/-- Character-list prefix test (avoids library name clashes). -/
def listLeads : List Char → List Char → Bool
  | [], _ => true
  | _ :: _, [] => false
  | a :: as, b :: bs => a = b && listLeads as bs

/-- JS `String.prototype.includes`: the pattern occurs somewhere in `s`. -/
def charsIncludes (pat : List Char) : List Char → Bool
  | [] => pat.isEmpty
  | c :: cs => listLeads pat (c :: cs) || charsIncludes pat cs

/-- JS `s.includes(pat)`. -/
def strIncludes (s pat : String) : Bool :=
  charsIncludes pat.data s.data

/-- JS `s.replace(pat, '')`: remove the first occurrence of `pat`, if any. -/
def replaceOnceL (pat : List Char) : List Char → List Char
  | [] => []
  | c :: cs =>
    if listLeads pat (c :: cs) then (c :: cs).drop pat.length
    else c :: replaceOnceL pat cs

/-- JS `s.replace(pat, '')` on strings. -/
def replaceOnce (s pat : String) : String :=
  ⟨replaceOnceL pat.data s.data⟩

/-- Minimum of a list (JS folds from an `Infinity` sentinel; `none` models the
sentinel surviving an empty list). -/
def listMinO : List Int → Option Int
  | [] => none
  | x :: xs => some (xs.foldl min x)

/-- Maximum of a list (`none` models the JS `-Infinity` sentinel). -/
def listMaxO : List Int → Option Int
  | [] => none
  | x :: xs => some (xs.foldl max x)

/-! ## The App.vue component (src/src/App.vue)

The file holds two component variants: the prefix-isolating `addSubGraph`
(first variant, lines 24–560, suffixed `V1` here) and the
share-nodes-across-fragments one with temp roots (second variant, lines
629–1305, suffixed `V2`).  Their canvas state also carries the
`subGraphCounter` used to mint prefixes. -/

/-- Component state of the App.vue variants. -/
structure CanvasV where
  nodes : List FlowNode := []
  edges : List FlowEdge := []
  subGraphCounter : Nat := 0
deriving DecidableEq, Repr

/-- Modelled from the spec: the external `dagre` library (a third-party
dependency, not code of this repository) computes positions for a node set;
`dagre.layout` always assigns every node finite `x`/`y` coordinates.  Every
claim settled through a dagre-calling variant depends only on each node
receiving *some* position (or, on abort paths, on nothing at all), never on
the numeric values, so the model places the nodes on a horizontal grid in list
order; changing these values changes no settled claim. -/
def dagreModelPositions (ns : List FragNode) : List (String × Pos) :=
  ns.enum.map (fun p => (p.2.id, ⟨(p.1 : Int) * (NODE_WIDTH + NODE_GAP), 0⟩))

/-- `layoutNodesWithDagre` (App.vue lines 271–311 and 1050–1090): empty input
yields an empty map; otherwise all nodes are positioned (dagre call modelled
by `dagreModelPositions`; the source converts dagre's centre coordinates to
top-left, which the model already produces). -/
def layoutNodesWithDagre (ns : List FragNode) (_es : List FragEdge) : List (String × Pos) :=
  if ns.length = 0 then [] else dagreModelPositions ns

/-- `layoutContainerChildren` of the App.vue variants (lines 316–393, and
identically — the extra `existingNodeIds` parameter is never read by the body
— lines 1095–1173 and part_000 lines 391–477): dagre positions for the
children, bounding box with `CONTAINER_PADDING` added all around, child
positions re-based to the container's top-left. -/
def layoutContainerChildrenV1 (c : FragContainer) (allNodes : List FragNode)
    (allEdges : List FragEdge) : ContainerLayout :=
  let childNodes := allNodes.filter (fun n => c.childIds.contains n.id)
  let _childEdges := allEdges.filter
    (fun e => c.childIds.contains e.source ∧ c.childIds.contains e.target)
  if childNodes.length = 0 then
    { childPositions := [], width := NODE_WIDTH, height := NODE_HEIGHT }
  else
    let ps := dagreModelPositions childNodes
    let minX := (listMinO (ps.map (fun p => p.2.x))).getD 0
    let maxX := (listMaxO (ps.map (fun p => p.2.x + NODE_WIDTH))).getD 0
    let minY := (listMinO (ps.map (fun p => p.2.y))).getD 0
    let maxY := (listMaxO (ps.map (fun p => p.2.y + NODE_HEIGHT))).getD 0
    let width := (maxX - minX) + CONTAINER_PADDING * 2
    let height := (maxY - minY) + CONTAINER_PADDING * 2
    let adjusted := ps.map (fun p =>
      (p.1, Pos.mk (p.2.x - minX + CONTAINER_PADDING) (p.2.y - minY + CONTAINER_PADDING)))
    { childPositions := adjusted, width := width, height := height }

/-- `getMaxY` (App.vue lines 531–542 / 1277–1288): bottom edge of the lowest
existing top-level record, starting from 0. -/
def getMaxYV (nodes : List FlowNode) : Int :=
  if nodes.length = 0 then 0
  else nodes.foldl
    (fun acc n =>
      if n.parentNode = none then max acc (n.position.y + nodeRenderHeight n) else acc)
    0

/-- `getMaxX` (App.vue lines 547–558 / 1293–1304): right edge of the rightmost
existing top-level record; `-Infinity` (no top-level record) maps to 0. -/
def getMaxXV (nodes : List FlowNode) : Int :=
  if nodes.length = 0 then 0
  else
    let m := nodes.foldl
      (fun (acc : Option Int) n =>
        if n.parentNode = none then
          some (match acc with
                | none => n.position.x + nodeRenderWidth n
                | some a => max a (n.position.x + nodeRenderWidth n))
        else acc)
      none
    m.getD 0

/-- Common body of `calculateSubGraphOffset` for non-empty position maps
(App.vue lines 398–418 and 1184–1202): place the new sub-graph below and to
the right of existing content.  (On an empty map the JS of the first variant
would propagate `Infinity`; that path is unreachable on every claim path and
maps the sentinel to 0.) -/
def subGraphOffsetCore (ips : List (String × Pos)) (canvasNodes : List FlowNode) : Pos :=
  let minX := (listMinO (ips.map (fun p => p.2.x))).getD 0
  let minY := (listMinO (ips.map (fun p => p.2.y))).getD 0
  let existingMaxY := getMaxYV canvasNodes
  let existingMaxX := getMaxXV canvasNodes
  let offsetX := if existingMaxX > 0 then existingMaxX + NODE_GAP - minX else -minX
  let offsetY :=
    if existingMaxY > 0 then existingMaxY + RANK_GAP - minY
    else if minY < 0 then -minY else 0
  ⟨offsetX, offsetY⟩

/-- `calculateSubGraphOffset`, first variant (lines 398–418; the
`failureLayout`/`successLayout` parameters of the source are never read). -/
def calculateSubGraphOffsetV1 (ips : List (String × Pos)) (canvasNodes : List FlowNode) : Pos :=
  subGraphOffsetCore ips canvasNodes

/-- `calculateSubGraphOffset`, second variant (lines 1178–1202): guarded for an
empty position map. -/
def calculateSubGraphOffsetV2 (ips : List (String × Pos)) (canvasNodes : List FlowNode) : Pos :=
  if ips.length = 0 then
    let existingMaxY := getMaxYV canvasNodes
    ⟨0, if existingMaxY > 0 then existingMaxY + RANK_GAP else 0⟩
  else subGraphOffsetCore ips canvasNodes

/-- `positionFailureContainer` (lines 423–438 / 507–522 / 1208–1223): to the
left of the laid-out graph, one rank below the root. -/
def positionFailureContainer (ips : List (String × Pos)) (rootId : String)
    (fl : ContainerLayout) (off : Pos) : Option Pos :=
  match alookup ips rootId with
  | none => none
  | some rootPos =>
    let level1Y := rootPos.y + NODE_HEIGHT + RANK_GAP
    let graphLeftX := (listMinO (ips.map (fun p => p.2.x))).getD 0
    let failureX := graphLeftX - fl.width - NODE_GAP
    some ⟨failureX + off.x, level1Y + off.y⟩

/-- `positionSuccessContainer` (lines 443–484 / 1228–1261; the first variant's
unused `prefixEdges`-derived `level1NodeIds` set is dead code): to the right
of the whole offset graph, one rank below the root, nudged past the failure
container on collision. -/
def positionSuccessContainer (ips : List (String × Pos)) (rootId : String)
    (_sl : ContainerLayout) (off : Pos) (failPos : Option Pos)
    (failLayout : Option ContainerLayout) : Option Pos :=
  match alookup ips rootId with
  | none => none
  | some rootPos =>
    let level1Y := rootPos.y + NODE_HEIGHT + RANK_GAP
    let graphRightX := ips.foldl
      (fun acc p => max acc (p.2.x + off.x + NODE_WIDTH))
      (rootPos.x + off.x + NODE_WIDTH)
    let successX := graphRightX + NODE_GAP
    let successX' :=
      match failPos, failLayout with
      | some fp, some fl =>
        if fp.x + fl.width > successX then fp.x + fl.width + NODE_GAP else successX
      | _, _ => successX
    some ⟨successX', level1Y + off.y⟩

/-- The same-container suppression test of the first variant's edge loop
(lines 238–250): both endpoints parented to the same container and the
unprefixed pair not explicitly present in the original edge list. -/
def edgeSameContainerSuppressedV1 (flowNodes : List FlowNode)
    (newEdges : List FragEdge) (pfx : String) (edge : FragEdge) : Bool :=
  match flowNodes.find? (fun n => n.id = edge.source),
        flowNodes.find? (fun n => n.id = edge.target) with
  | some sn, some tn =>
    match sn.parentNode, tn.parentNode with
    | some ps, some pt =>
      if ps = pt then
        let originalSource := replaceOnce edge.source pfx
        let originalTarget := replaceOnce edge.target pfx
        ! newEdges.any (fun e => e.source = originalSource ∧ e.target = originalTarget)
      else false
    | _, _ => false
  | _, _ => false

/-- One step of the first variant's edge loop (lines 229–262). -/
def edgeStepV1 (flowNodes : List FlowNode) (newEdges : List FragEdge) (pfx : String)
    (acc : List FlowEdge × List String) (edge : FragEdge) :
    List FlowEdge × List String :=
  let edgeId := "edge-" ++ edge.source ++ "-" ++ edge.target
  let sourceExists := flowNodes.any (fun n => n.id = edge.source)
  let targetExists := flowNodes.any (fun n => n.id = edge.target)
  if ¬ sourceExists ∨ ¬ targetExists then acc
  else if edgeSameContainerSuppressedV1 flowNodes newEdges pfx edge then acc
  else if ¬ acc.2.contains edgeId then
    (acc.1 ++ [{ id := edgeId, source := edge.source, target := edge.target,
                 type := "bezier", animated := false }],
     acc.2 ++ [edgeId])
  else acc

/-- The first variant's edge phase (App.vue lines 227–262): endpoint existence
check, same-container suppression against the original (unprefixed) edge
list, then duplicate-id dedup and push. -/
def buildEdgesV1 (flowNodes : List FlowNode) (prevEdges : List FlowEdge)
    (prefixEdges : List FragEdge) (newEdges : List FragEdge) (pfx : String) :
    List FlowEdge :=
  (prefixEdges.foldl (edgeStepV1 flowNodes newEdges pfx)
    (prevEdges, prevEdges.map (·.id))).1

/-- The same-container suppression test of the part_000 edge loop (lines
301–312): both endpoints parented to the same container and the pair not
explicitly present in the original edge list (node ids are unprefixed in this
variant, so the comparison is direct).  The enclosing phase (lines 282–337)
does dedup first, then the endpoint existence check — a missing endpoint is
reported via `console.warn` and the single edge skipped. -/
def edgeSameContainerSuppressedP0 (flowNodes : List FlowNode)
    (newEdges : List FragEdge) (edge : FragEdge) : Bool :=
  match flowNodes.find? (fun n => n.id = edge.source),
        flowNodes.find? (fun n => n.id = edge.target) with
  | some sn, some tn =>
    match sn.parentNode, tn.parentNode with
    | some ps, some pt =>
      if ps = pt then
        ! newEdges.any (fun e => e.source = edge.source ∧ e.target = edge.target)
      else false
    | _, _ => false
  | _, _ => false

/-- One step of the part_000 edge loop (lines 284–337). -/
def edgeStepP0 (flowNodes : List FlowNode) (newEdges : List FragEdge)
    (originalExistingNodeIds : List String)
    (acc : List FlowEdge × List String) (edge : FragEdge) :
    List FlowEdge × List String :=
  let edgeId := "edge-" ++ edge.source ++ "-" ++ edge.target
  if acc.2.contains edgeId then acc
  else
    let sourceExists := flowNodes.any (fun n => n.id = edge.source)
    let targetExists := flowNodes.any (fun n => n.id = edge.target)
    if ¬ sourceExists ∨ ¬ targetExists then acc
    else if edgeSameContainerSuppressedP0 flowNodes newEdges edge then acc
    else
      let sourceIsExisting := originalExistingNodeIds.contains edge.source
      let targetIsNew := ¬ originalExistingNodeIds.contains edge.target
      let rec0 : FlowEdge :=
        { id := edgeId, source := edge.source, target := edge.target,
          type := "bezier", animated := false }
      let rec1 :=
        if sourceIsExisting ∧ targetIsNew then
          { rec0 with sourcePosition := some "right", targetPosition := some "top" }
        else rec0
      (acc.1 ++ [rec1], acc.2 ++ [edgeId])

/-- The part_000 edge phase assembled from its step. -/
def buildEdgesP0 (flowNodes : List FlowNode) (prevEdges : List FlowEdge)
    (prefixEdges : List FragEdge) (newEdges : List FragEdge)
    (originalExistingNodeIds : List String) : List FlowEdge :=
  (prefixEdges.foldl (edgeStepP0 flowNodes newEdges originalExistingNodeIds)
    (prevEdges, prevEdges.map (·.id))).1

/-- The individual-node record of the first App.vue variant (lines 127–143). -/
def individualRecordV1 (id : String) (p : Pos) (off : Pos) (pfx : String) : FlowNode :=
  { id := id, type := "default", position := ⟨p.x + off.x, p.y + off.y⟩,
    width := some NODE_WIDTH, height := some NODE_HEIGHT,
    label := replaceOnce id pfx, draggable := true }

/-- The container record of the App.vue variants (lines 147–163 etc.). -/
def containerRecordV (id : String) (p : Pos) (cl : ContainerLayout) (label : String) : FlowNode :=
  { id := id, type := "default", position := p,
    width := some cl.width, height := some cl.height, label := label,
    selectable := true, draggable := true,
    styleBorder := true, styleWidth := some cl.width, styleHeight := some cl.height }

/-- The container-child record of the App.vue variants (lines 170–181 etc.). -/
def childRecordV (childId : String) (p : Pos) (containerId : String) (label : String) : FlowNode :=
  { id := childId, type := "default", position := p, label := label,
    parentNode := some containerId, extentParent := true, draggable := false }

/-- Push a container and its children (first variant, lines 146–225): the
children carry container-relative positions and the `extent: 'parent'`
constraint. -/
def pushContainerV1 (flowNodes : List FlowNode) (c : FragContainer)
    (cpos : Pos) (cl : ContainerLayout) (label : String) (pfx : String) : List FlowNode :=
  let withC := flowNodes ++ [containerRecordV c.id cpos cl label]
  c.childIds.foldl
    (fun acc childId =>
      match alookup cl.childPositions childId with
      | some p => acc ++ [childRecordV childId p c.id (replaceOnce childId pfx)]
      | none => acc)
    withC

/-- The prefixed individual (non-container-child) nodes of the first App.vue
variant (lines 58–76). -/
def v1IndividualNodes (graphData : Fragment) (pfx : String) : List FragNode :=
  let prefixNodes := graphData.nodes.map (fun n => { n with id := pfx ++ n.id })
  let prefixContainers := graphData.containers.map
    (fun c => FragContainer.mk (pfx ++ c.id) (c.childIds.map (fun i => pfx ++ i)))
  prefixNodes.filter
    (fun n => ¬ prefixContainers.any (fun c => c.childIds.contains n.id))

/-- The root-node search of the first App.vue variant (lines 78–81): the first
individual node with no incoming prefixed edge. -/
def v1RootNode (graphData : Fragment) (pfx : String) : Option FragNode :=
  let prefixEdges := graphData.edges.map
    (fun e => FragEdge.mk (pfx ++ e.source) (pfx ++ e.target))
  (v1IndividualNodes graphData pfx).find?
    (fun n => ¬ prefixEdges.any (fun e => e.target = n.id))

/-- `addSubGraph`, first App.vue variant (lines 53–266): prefix every id, abort
(leaving `nodes`/`edges` untouched) when no individual node lacks an incoming
edge, otherwise lay out individual nodes via dagre, the `failure` and
`success` containers beside them, shift everything into free space below and
to the right of existing content, and append the records. -/
def addSubGraphV1 (graphData : Fragment) (st : CanvasV) : CanvasV :=
  let pfx := "subgraph_" ++ toString st.subGraphCounter ++ "_"
  let counter' := st.subGraphCounter + 1
  let newEdges := graphData.edges
  let prefixNodes := graphData.nodes.map (fun n => { n with id := pfx ++ n.id })
  let prefixEdges := graphData.edges.map
    (fun e => FragEdge.mk (pfx ++ e.source) (pfx ++ e.target))
  let prefixContainers := graphData.containers.map
    (fun c => FragContainer.mk (pfx ++ c.id) (c.childIds.map (fun i => pfx ++ i)))
  let individualNodes := v1IndividualNodes graphData pfx
  match v1RootNode graphData pfx with
  | none =>
    -- console.error('No root node found'); return — canvas collections untouched
    { st with subGraphCounter := counter' }
  | some rootNode =>
    let individualEdges := prefixEdges.filter
      (fun e => individualNodes.any (fun n => n.id = e.source)
              ∧ individualNodes.any (fun n => n.id = e.target))
    let ips := layoutNodesWithDagre individualNodes individualEdges
    let failureContainer := prefixContainers.find? (fun c => strIncludes c.id "failure")
    let failureLayout := failureContainer.map
      (fun c => layoutContainerChildrenV1 c prefixNodes prefixEdges)
    let successContainer := prefixContainers.find? (fun c => strIncludes c.id "success")
    let successLayout := successContainer.map
      (fun c => layoutContainerChildrenV1 c prefixNodes prefixEdges)
    let off := calculateSubGraphOffsetV1 ips st.nodes
    let failureContainerPos :=
      match failureLayout with
      | some fl => positionFailureContainer ips rootNode.id fl off
      | none => none
    let successContainerPos :=
      match successLayout with
      | some sl => positionSuccessContainer ips rootNode.id sl off
          failureContainerPos failureLayout
      | none => none
    let fn0 := individualNodes.foldl
      (fun acc node =>
        match alookup ips node.id with
        | some p => acc ++ [individualRecordV1 node.id p off pfx]
        | none => acc)
      st.nodes
    let fn1 :=
      match failureContainer, failureContainerPos, failureLayout with
      | some c, some p, some fl => pushContainerV1 fn0 c p fl "failure" pfx
      | _, _, _ => fn0
    let fn2 :=
      match successContainer, successContainerPos, successLayout with
      | some c, some p, some sl => pushContainerV1 fn1 c p sl "success" pfx
      | _, _, _ => fn1
    { nodes := fn2, edges := buildEdgesV1 fn2 st.edges prefixEdges newEdges pfx,
      subGraphCounter := counter' }

/-! ## `addSubGraph`, second App.vue variant (lines 657–1045)

This variant shares node ids across fragments (only container ids are
prefixed) and, for every existing node that feeds a new node, inserts a
dashed "temp root" copy and redirects those edges to it. -/

/-- Temp-root bookkeeping: original source id, temp-root id, display label
(lines 706–726). -/
structure TempRoot where
  originalId : String
  tempId : String
  label : String
deriving DecidableEq, Repr

/-- The temp-root record (lines 809–830). -/
def tempRootRecord (t : TempRoot) (p : Pos) (off : Pos) : FlowNode :=
  { id := t.tempId, type := "custom", position := ⟨p.x + off.x, p.y + off.y⟩,
    width := some NODE_WIDTH, height := some NODE_HEIGHT,
    label := t.label, draggable := true, styleDashedBorder := true }

/-- The new-individual record of the second variant (lines 833–855): note
`type: 'custom'`. -/
def individualRecordV2 (id : String) (p : Pos) (off : Pos) : FlowNode :=
  { id := id, type := "custom", position := ⟨p.x + off.x, p.y + off.y⟩,
    width := some NODE_WIDTH, height := some NODE_HEIGHT,
    label := id, draggable := true }

/-- Overwriting `Map.set` keeping the original insertion position. -/
def asetKeep {α : Type} (m : List (String × α)) (k : String) (v : α) :
    List (String × α) :=
  if m.any (fun p => p.1 = k) then
    m.map (fun p => if p.1 = k then (k, v) else p)
  else m ++ [(k, v)]

/-- Lines 958–962: rewrite the *first* record with the given id to
`type: 'custom'` unless it already is — the in-place mutation of a
pre-existing canvas record. -/
def setTypeCustomFirst (targetId : String) : List FlowNode → List FlowNode
  | [] => []
  | n :: ns =>
    if n.id = targetId then
      (if n.type = "custom" then n else { n with type := "custom" }) :: ns
    else n :: setTypeCustomFirst targetId ns

/-- The temp-root linking edge (lines 964–977). -/
def tempLinkEdge (t : TempRoot) : FlowEdge :=
  { id := "edge-" ++ t.originalId ++ "-" ++ t.tempId,
    source := t.originalId, target := t.tempId, type := "default",
    animated := false, sourcePosition := some "right",
    targetPosition := some "left", styleDashed := true }

/-- The inputs `addSubGraphV2` derives from the fragment and the canvas before
building records (lines 657–726): prefixed containers, the split of
individual nodes into new and existing, the temp roots, and the redirected
edge list. -/
structure V2Prep where
  pfx : String
  prefixContainers : List FragContainer
  individualNodes : List FragNode
  originalExistingNodeIds : List String
  newIndividualNodes : List FragNode
  existingIndividualNodes : List FragNode
  tempRoots : List TempRoot
  modifiedEdges : List FragEdge
deriving Repr

/-- Lines 657–726 of the second variant: id policy (node ids shared, container
ids prefixed), the split into new/existing individuals, temp-root creation for
every existing source feeding a new node, and edge redirection onto the temp
roots. -/
def v2Prep (graphData : Fragment) (st : CanvasV) : V2Prep :=
  let pfx := "subgraph_" ++ toString st.subGraphCounter ++ "_"
  let prefixContainers := graphData.containers.map
    (fun c => FragContainer.mk (pfx ++ c.id) c.childIds)
  let individualNodes := graphData.nodes.filter
    (fun n => ¬ prefixContainers.any (fun c => c.childIds.contains n.id))
  let originalExistingNodeIds := st.nodes.map (·.id)
  let newIndividualNodes := individualNodes.filter
    (fun n => ¬ originalExistingNodeIds.contains n.id)
  let existingIndividualNodes := individualNodes.filter
    (fun n => originalExistingNodeIds.contains n.id)
  let sourceNodesToNewNodes := dedupFirst
    ((graphData.edges.filter (fun e =>
        originalExistingNodeIds.contains e.source
        ∧ ¬ originalExistingNodeIds.contains e.target)).map (·.source))
  let tempRoots : List TempRoot := sourceNodesToNewNodes.filterMap
    (fun sourceId =>
      match st.nodes.find? (fun n => n.id = sourceId) with
      | some sn => some ⟨sourceId, pfx ++ "temp_" ++ sourceId,
                         if sn.label = "" then sourceId else sn.label⟩
      | none => none)
  let modifiedEdges := graphData.edges.map
    (fun e =>
      if originalExistingNodeIds.contains e.source
          ∧ ¬ originalExistingNodeIds.contains e.target then
        match tempRoots.find? (fun t => t.originalId = e.source) with
        | some t => FragEdge.mk t.tempId e.target
        | none => e
      else e)
  ⟨pfx, prefixContainers, individualNodes, originalExistingNodeIds,
   newIndividualNodes, existingIndividualNodes, tempRoots, modifiedEdges⟩

/-- The merged position map of the second variant (lines 756–777): dagre over
the new nodes plus temp roots, then the stored positions of existing
individual nodes written on top (`Map.set` overwrite). -/
def v2Positions (pr : V2Prep) (st : CanvasV) : List (String × Pos) :=
  let tempRootNodesList : List FragNode := pr.tempRoots.map
    (fun t => { id := t.tempId, width := some NODE_WIDTH, height := some NODE_HEIGHT })
  let allNodesForLayout := pr.newIndividualNodes ++ tempRootNodesList
  let individualEdges := pr.modifiedEdges.filter
    (fun e => allNodesForLayout.any (fun n => n.id = e.source)
            ∧ allNodesForLayout.any (fun n => n.id = e.target))
  let ips0 :=
    if allNodesForLayout.length > 0
    then layoutNodesWithDagre allNodesForLayout individualEdges
    else []
  pr.existingIndividualNodes.foldl
    (fun m node =>
      match st.nodes.find? (fun n => n.id = node.id) with
      | some en => asetKeep m node.id en.position
      | none => m)
    ips0

/-- The root-node selection of the second variant (lines 732–754): the first
temp root if any, else a new node with no incoming (modified) edge, else the
first layout node. -/
def v2RootNode (pr : V2Prep) : Option FragNode :=
  let tempRootNodesList : List FragNode := pr.tempRoots.map
    (fun t => { id := t.tempId, width := some NODE_WIDTH, height := some NODE_HEIGHT })
  let allNodesForLayout := pr.newIndividualNodes ++ tempRootNodesList
  if tempRootNodesList.length > 0 then tempRootNodesList.head?
  else
    match allNodesForLayout.find?
        (fun n => ¬ pr.modifiedEdges.any (fun e => e.target = n.id)) with
    | some r => some r
    | none => allNodesForLayout.head?

/-- One container push with children of the second variant (lines 858–949):
skip any child whose id is already taken. -/
def v2PushContainer (acc : List FlowNode × List String) (c : FragContainer)
    (cp : Pos) (cl : ContainerLayout) (label : String) :
    List FlowNode × List String :=
  let withC : List FlowNode × List String :=
    (acc.1 ++ [containerRecordV c.id cp cl label], acc.2)
  c.childIds.foldl
    (fun (acc2 : List FlowNode × List String) childId =>
      if acc2.2.contains childId then acc2
      else
        match alookup cl.childPositions childId with
        | some q => (acc2.1 ++ [childRecordV childId q c.id childId], acc2.2 ++ [childId])
        | none => acc2)
    withC

/-- The node-record phase of the second variant (lines 805–949): temp roots,
new individual nodes (`type: 'custom'`), then the failure and success
containers with their children. -/
def v2NodePhase (pr : V2Prep) (st : CanvasV) (ips : List (String × Pos))
    (off : Pos)
    (failureContainer : Option FragContainer) (failureContainerPos : Option Pos)
    (failureLayout : Option ContainerLayout)
    (successContainer : Option FragContainer) (successContainerPos : Option Pos)
    (successLayout : Option ContainerLayout) : List FlowNode :=
  let p0 : List FlowNode × List String := pr.tempRoots.foldl
    (fun (acc : List FlowNode × List String) t =>
      match alookup ips t.tempId with
      | some p => (acc.1 ++ [tempRootRecord t p off], acc.2 ++ [t.tempId])
      | none => acc)
    (st.nodes, pr.originalExistingNodeIds)
  let p1 : List FlowNode × List String := pr.newIndividualNodes.foldl
    (fun (acc : List FlowNode × List String) node =>
      if acc.2.contains node.id then acc
      else
        match alookup ips node.id with
        | some p => (acc.1 ++ [individualRecordV2 node.id p off], acc.2 ++ [node.id])
        | none => acc)
    p0
  let p2 : List FlowNode × List String :=
    match failureContainer, failureContainerPos, failureLayout with
    | some c, some cp, some fl => v2PushContainer p1 c cp fl "failure"
    | _, _, _ => p1
  let p3 : List FlowNode × List String :=
    match successContainer, successContainerPos, successLayout with
    | some c, some cp, some sl => v2PushContainer p2 c cp sl "success"
    | _, _, _ => p2
  p3.1

/-- The temp-root linking phase of the second variant (lines 952–979): for each
temp root whose endpoints both exist, rewrite the *existing* source record's
`type` to `'custom'` (an in-place mutation of a pre-existing canvas record)
and push the dashed linking edge. -/
def v2TempLinkPhase (tempRoots : List TempRoot)
    (acc0 : List FlowNode × List FlowEdge) : List FlowNode × List FlowEdge :=
  tempRoots.foldl
    (fun (acc : List FlowNode × List FlowEdge) t =>
      let sourceExists := acc.1.any (fun n => n.id = t.originalId)
      let targetExists := acc.1.any (fun n => n.id = t.tempId)
      if sourceExists ∧ targetExists then
        (setTypeCustomFirst t.originalId acc.1, acc.2 ++ [tempLinkEdge t])
      else acc)
    acc0

/-- The main edge phase of the second variant (lines 982–1041): dedup (the temp
link ids are pre-seeded), endpoint existence, same-container suppression
against the original edge list, handle styling for temp-root sources and new
targets. -/
def v2EdgePhase (pr : V2Prep) (flowNodes : List FlowNode)
    (prevEdges : List FlowEdge) (newEdges : List FragEdge) : List FlowEdge :=
  let tempRootNodesList : List FragNode := pr.tempRoots.map
    (fun t => { id := t.tempId, width := some NODE_WIDTH, height := some NODE_HEIGHT })
  let addedEdgeIds0 := prevEdges.map (·.id)
    ++ pr.tempRoots.map (fun t => "edge-" ++ t.originalId ++ "-" ++ t.tempId)
  (pr.modifiedEdges.foldl
    (fun (acc : List FlowEdge × List String) edge =>
      let edgeId := "edge-" ++ edge.source ++ "-" ++ edge.target
      if acc.2.contains edgeId then acc
      else
        let sourceExists := flowNodes.any (fun n => n.id = edge.source)
        let targetExists := flowNodes.any (fun n => n.id = edge.target)
        if ¬ sourceExists ∨ ¬ targetExists then acc
        else
          let suppressed :=
            match flowNodes.find? (fun n => n.id = edge.source),
                  flowNodes.find? (fun n => n.id = edge.target) with
            | some sn, some tn =>
              match sn.parentNode, tn.parentNode with
              | some ps, some pt =>
                if ps = pt then
                  ! newEdges.any (fun e => e.source = edge.source ∧ e.target = edge.target)
                else false
              | _, _ => false
            | _, _ => false
          if suppressed then acc
          else
            let sourceIsTempRoot := tempRootNodesList.any (fun tr => tr.id = edge.source)
            let targetIsNew := ¬ pr.originalExistingNodeIds.contains edge.target
            let rec0 : FlowEdge :=
              { id := edgeId, source := edge.source, target := edge.target,
                type := "default", animated := false }
            let rec1 :=
              if sourceIsTempRoot then { rec0 with sourcePosition := some "right" } else rec0
            let rec2 :=
              if targetIsNew then { rec1 with targetPosition := some "top" } else rec1
            (acc.1 ++ [rec2], acc.2 ++ [edgeId]))
    (prevEdges, addedEdgeIds0)).1

/-- `addSubGraph`, second App.vue variant (lines 657–1045), assembled from the
phase functions above. -/
def addSubGraphV2 (graphData : Fragment) (st : CanvasV) : CanvasV :=
  let pr := v2Prep graphData st
  let counter' := st.subGraphCounter + 1
  match v2RootNode pr with
  | none =>
    -- console.error('No root node found'); return
    { st with subGraphCounter := counter' }
  | some rootNode =>
    let ips := v2Positions pr st
    let failureContainer := pr.prefixContainers.find? (fun c => strIncludes c.id "failure")
    let failureLayout := failureContainer.map
      (fun c => layoutContainerChildrenV1 c graphData.nodes graphData.edges)
    let successContainer := pr.prefixContainers.find? (fun c => strIncludes c.id "success")
    let successLayout := successContainer.map
      (fun c => layoutContainerChildrenV1 c graphData.nodes graphData.edges)
    let off := calculateSubGraphOffsetV2 ips st.nodes
    let failureContainerPos :=
      match failureLayout with
      | some fl => positionFailureContainer ips rootNode.id fl off
      | none => none
    let successContainerPos :=
      match successLayout with
      | some sl => positionSuccessContainer ips rootNode.id sl off
          failureContainerPos failureLayout
      | none => none
    let fn := v2NodePhase pr st ips off failureContainer failureContainerPos
      failureLayout successContainer successContainerPos successLayout
    let linked := v2TempLinkPhase pr.tempRoots (fn, st.edges)
    { nodes := linked.1,
      edges := v2EdgePhase pr linked.1 linked.2 graphData.edges,
      subGraphCounter := counter' }

/-! ## Spec-level predicates and concrete claim instances -/

/-- Axis-aligned bounding-box intersection of two records ("position plus
width/height"), sizes read back the way the incremental code itself reads
them. -/
def BoxesOverlap (a b : FlowNode) : Prop :=
  a.position.x < b.position.x + nodeRenderWidth b
  ∧ b.position.x < a.position.x + nodeRenderWidth a
  ∧ a.position.y < b.position.y + nodeRenderHeight b
  ∧ b.position.y < a.position.y + nodeRenderHeight a

instance (a b : FlowNode) : Decidable (BoxesOverlap a b) := by
  unfold BoxesOverlap; infer_instance

/-- The expected column shape of a container interior: all children at the
fixed left inset, each one `CONTAINER_CHILD_GAP` below the bottom edge of the
previous one. -/
def columnPositions : List FragNode → Int → List (String × Pos)
  | [], _ => []
  | c :: cs, y0 =>
    (c.id, Pos.mk CONTAINER_PADDING y0)
      :: columnPositions cs (y0 + jsOr c.height NODE_HEIGHT + CONTAINER_CHILD_GAP)

/-- A standard `NODE_WIDTH × NODE_HEIGHT` fragment node, as in `data.js`. -/
def stdNode (i : String) : FragNode :=
  { id := i, width := some NODE_WIDTH, height := some NODE_HEIGHT }

/-- First insertion of the no-overlap failing input: a stem `A → B` that fans
out to `C` and `D` in rank 2. -/
def fragStem : Fragment :=
  { nodes := [stdNode "A", stdNode "B", stdNode "C", stdNode "D"]
    edges := [⟨"A", "B"⟩, ⟨"B", "C"⟩, ⟨"B", "D"⟩] }

/-- Second insertion of the no-overlap failing input: a 300-px-tall root `P`
with successor `Q` (fragment nodes carry caller-chosen sizes, spec §6). -/
def fragTall : Fragment :=
  { nodes := [{ id := "P", width := some 160, height := some 300 }, stdNode "Q"]
    edges := [⟨"P", "Q"⟩] }

/-- The canvas after the two insertions of the no-overlap failing input. -/
def overlapState : CanvasState :=
  addToGraph fragTall "p1_" (addToGraph fragStem "p0_" {})

/-- Rank-assignment inputs of the rank-monotonicity counterexample: the
diamond `A → B`, `B → C`, `A → C`. -/
def diamondNodes : List FragNode := [stdNode "A", stdNode "B", stdNode "C"]

/-- Edges of the diamond counterexample. -/
def diamondEdges : List (String × String) := [("A", "B"), ("B", "C"), ("A", "C")]

/-- A non-empty fragment with no root: the two-node cycle `X ⇄ Y`. -/
def cycFrag : Fragment :=
  { nodes := [stdNode "X", stdNode "Y"], edges := [⟨"X", "Y"⟩, ⟨"Y", "X"⟩] }

/-- A fragment whose only edge dangles: node `A`, edge `A → B` with `B`
nowhere defined. -/
def dangFrag : Fragment := { nodes := [stdNode "A"], edges := [⟨"A", "B"⟩] }

/-- The canvas after inserting the dangling-edge fragment on an empty canvas
through the part_001 entry point. -/
def dangState : CanvasState := addToGraph dangFrag "p_" {}

/-- Pre-state of the frame-property counterexample: one plain canvas record
`C` with `type: 'default'`. -/
def preMutState : CanvasV :=
  { nodes := [{ id := "C", type := "default", position := ⟨0, 0⟩,
                width := some NODE_WIDTH, height := some NODE_HEIGHT, label := "C" }]
    edges := []
    subGraphCounter := 1 }

/-- The fragment that links existing `C` to a new node `Z` in the share-nodes
variant. -/
def mutFrag : Fragment := { nodes := [stdNode "Z"], edges := [⟨"C", "Z"⟩] }

/-- Post-state of the frame-property counterexample. -/
def postMutState : CanvasV := addSubGraphV2 mutFrag preMutState

/-- A single placed record used to witness the stability statements. -/
def wRecord : FlowNode :=
  { id := "w", position := ⟨0, 0⟩, width := some NODE_WIDTH, height := some NODE_HEIGHT }

/-- A one-record canvas used to witness the stability statements. -/
def wState : CanvasState := { nodes := [wRecord], edges := [] }

/-- Canvas records for the part_000 edge-phase witness: an outside node `o`
and a child `c1` of container `K` (node ids unprefixed in that variant). -/
def p0FlowNodes : List FlowNode :=
  [ { id := "o", position := ⟨0, 0⟩ },
    { id := "c1", position := ⟨20, 20⟩, parentNode := some "K" } ]

/-- The edge record `o → c1` as the part_000 phase emits it (existing source,
new target, hence the handle styling). -/
def p0Emitted : FlowEdge :=
  { id := "edge-o-c1", source := "o", target := "c1", type := "bezier",
    animated := false, sourcePosition := some "right", targetPosition := some "top" }

/-- Canvas records for the first-variant edge-phase witness: an outside node
`p_o` and two children of container `K`, all prefixed with `p_`. -/
def v1FlowNodes : List FlowNode :=
  [ { id := "p_o", position := ⟨0, 0⟩ },
    { id := "p_c1", position := ⟨20, 20⟩, parentNode := some "K" },
    { id := "p_c2", position := ⟨20, 118⟩, parentNode := some "K" } ]

/-- The original (unprefixed) edges of the suppression witness: one from
outside into the container, one between the two children (explicit). -/
def v1NewEdges : List FragEdge := [⟨"o", "c1"⟩, ⟨"c1", "c2"⟩]

/-- The outside-to-child edge record the first variant emits. -/
def v1Emitted : FlowEdge :=
  { id := "edge-p_o-p_c1", source := "p_o", target := "p_c1",
    type := "bezier", animated := false }

/-- Children used to witness the container interior layout. -/
def wChildren : List FragNode := [stdNode "c1", stdNode "c2"]

/-- Internal edges used to witness the container interior layout. -/
def wChildEdges : List (String × String) := [("c1", "c2")]

/-- Concrete fragment with a container, exercised by the idempotence witness. -/
def idemFrag : Fragment :=
  { nodes := [stdNode "A", stdNode "B", stdNode "C"]
    edges := [⟨"A", "B"⟩, ⟨"A", "C"⟩]
    containers := [⟨"grp", ["B", "C"]⟩] }

/-- Rank-assignment inputs of the pure-cycle witness. -/
def cycNodes : List FragNode := [stdNode "X", stdNode "Y"]

/-- Edge pairs of the pure-cycle witness. -/
def cycPairs : List (String × String) := [("X", "Y"), ("Y", "X")]

/-- A discovery-justified rank entry: rank 0, or reached through an edge from
an entry one rank lower ("rank = parent rank + 1"). -/
def GoodEntry (es : List (String × String)) (R : List (String × Nat))
    (p : String × Nat) : Prop :=
  p.2 = 0 ∨ ∃ u r, (u, p.1) ∈ es ∧ (u, r) ∈ R ∧ p.2 = r + 1

/-- Invariant of the roots loop of the rank computation: the visited set is
exactly the rank map's key sequence without duplicates, zero-rank entries are
roots (no incoming filtered edge), and every entry is discovery-justified. -/
def PhaseOk (es : List (String × String)) (st : BfsSt) : Prop :=
  st.visited = st.ranks.map Prod.fst
  ∧ st.visited.Nodup
  ∧ (∀ p ∈ st.ranks, p.2 = 0 → hasIncoming es p.1 = false)
  ∧ (∀ p ∈ st.ranks, GoodEntry es st.ranks p)

/-- Invariant of the container loop of `addToGraph`: every bordered record of
the accumulated canvas is either a pre-existing container record (its id in
`B0`) or one pushed by the loop — in which case the pushed container's looked-up
children have all entered the used-id set. -/
def BorderInv (lr : LayoutResult) (clist : List FragContainer) (B0 : List String)
    (acc : List FlowNode × List String) : Prop :=
  ∀ r ∈ acc.1, r.styleBorder = true →
    r.id ∈ B0 ∨ ∃ c cl, c ∈ clist ∧ c.id = r.id
      ∧ alookup lr.containerData c.id = some cl
      ∧ ∀ x ∈ c.childIds, (alookup cl.childPositions x).isSome → x ∈ acc.2

/-! # Infrastructure lemmas -/

theorem alookup_nil {κ α : Type} [DecidableEq κ] (k : κ) :
    alookup ([] : List (κ × α)) k = none := rfl

theorem alookup_cons {κ α : Type} [DecidableEq κ] (p : κ × α) (l : List (κ × α)) (k : κ) :
    alookup (p :: l) k = if p.1 = k then some p.2 else alookup l k := by
  unfold alookup
  by_cases hp : p.1 = k
  · rw [List.find?_cons_of_pos _ (by simpa using hp)]
    simp [hp]
  · rw [List.find?_cons_of_neg _ (by simpa using hp)]
    simp [hp]

theorem alookup_append_left {κ α : Type} [DecidableEq κ] {l : List (κ × α)}
    (m : List (κ × α)) {k : κ} {v : α} (h : alookup l k = some v) :
    alookup (l ++ m) k = some v := by
  induction l with
  | nil => simp [alookup_nil] at h
  | cons p l ih =>
    rw [alookup_cons] at h
    rw [List.cons_append, alookup_cons]
    by_cases hp : p.1 = k
    · rwa [if_pos hp] at h ⊢
    · rw [if_neg hp] at h ⊢
      exact ih h

theorem alookup_eq_none {κ α : Type} [DecidableEq κ] {l : List (κ × α)} {k : κ}
    (h : k ∉ l.map Prod.fst) : alookup l k = none := by
  induction l with
  | nil => rfl
  | cons p l ih =>
    simp only [List.map_cons, List.mem_cons] at h
    push_neg at h
    rw [alookup_cons, if_neg (fun hh => h.1 hh.symm)]
    exact ih h.2

theorem alookup_isSome_of_mem_keys {κ α : Type} [DecidableEq κ] {l : List (κ × α)} {k : κ}
    (h : k ∈ l.map Prod.fst) : (alookup l k).isSome := by
  induction l with
  | nil => simp at h
  | cons p l ih =>
    rw [alookup_cons]
    by_cases hp : p.1 = k
    · simp [hp]
    · rw [if_neg hp]
      simp only [List.map_cons, List.mem_cons] at h
      rcases h with h | h
      · exact absurd h.symm hp
      · exact ih h

theorem alookup_mem {κ α : Type} [DecidableEq κ] {l : List (κ × α)} {k : κ} {v : α}
    (h : alookup l k = some v) : (k, v) ∈ l := by
  induction l with
  | nil => simp [alookup_nil] at h
  | cons p l ih =>
    rw [alookup_cons] at h
    by_cases hp : p.1 = k
    · rw [if_pos hp] at h
      simp only [Option.some.injEq] at h
      have : p = (k, v) := by
        calc p = (p.1, p.2) := rfl
          _ = (k, v) := by rw [hp, h]
      rw [← this]
      exact List.mem_cons_self p l
    · rw [if_neg hp] at h
      exact List.mem_cons_of_mem _ (ih h)

/-- A two-accumulator fold where every step appends a block to the first
component and the block's image to the second only ever grows both. -/
theorem foldl_append_general {α β γ : Type} (g : β → γ)
    (f : List β × List γ → α → List β × List γ)
    (hf : ∀ acc a, ∃ t, f acc a = (acc.1 ++ t, acc.2 ++ t.map g)) :
    ∀ (l : List α) (acc : List β × List γ),
      ∃ t, l.foldl f acc = (acc.1 ++ t, acc.2 ++ t.map g) := by
  intro l
  induction l with
  | nil => intro acc; exact ⟨[], by simp⟩
  | cons a l ih =>
    intro acc
    obtain ⟨t0, h0⟩ := hf acc a
    obtain ⟨t1, h1⟩ := ih (f acc a)
    refine ⟨t0 ++ t1, ?_⟩
    rw [List.foldl_cons, h1, h0]
    simp [List.append_assoc]

theorem addNodeStep_append (lr : LayoutResult) (cs : List FragContainer)
    (acc : List FlowNode × List String) (node : FragNode) :
    ∃ t, addNodeStep lr cs acc node = (acc.1 ++ t, acc.2 ++ t.map FlowNode.id) := by
  unfold addNodeStep
  rcases alookup lr.nodePositions node.id with _ | pos
  · exact ⟨[], by simp⟩
  · dsimp only
    split
    · exact ⟨[regularNodeRecord node pos], by simp [regularNodeRecord]⟩
    · exact ⟨[], by simp⟩

theorem addChildStep_append (cl : ContainerLayout) (cid : String)
    (acc : List FlowNode × List String) (childId : String) :
    ∃ t, addChildStep cl cid acc childId = (acc.1 ++ t, acc.2 ++ t.map FlowNode.id) := by
  unfold addChildStep
  rcases alookup cl.childPositions childId with _ | cp
  · exact ⟨[], by simp⟩
  · dsimp only
    split
    · exact ⟨[childNodeRecord childId cp cid], by simp [childNodeRecord]⟩
    · exact ⟨[], by simp⟩

theorem addContainerStep_append (lr : LayoutResult)
    (acc : List FlowNode × List String) (c : FragContainer) :
    ∃ t, addContainerStep lr acc c = (acc.1 ++ t, acc.2 ++ t.map FlowNode.id) := by
  unfold addContainerStep
  rcases alookup lr.nodePositions c.id with _ | pos
  · exact ⟨[], by simp⟩
  · rcases alookup lr.containerData c.id with _ | cl
    · exact ⟨[], by simp⟩
    · dsimp only
      split
      · obtain ⟨t1, h1⟩ := foldl_append_general FlowNode.id (addChildStep cl c.id)
          (addChildStep_append cl c.id) c.childIds
          (acc.1 ++ [containerNodeRecord c pos cl], acc.2 ++ [c.id])
        refine ⟨containerNodeRecord c pos cl :: t1, ?_⟩
        rw [h1]
        simp [containerNodeRecord]
      · exact ⟨[], by simp⟩

theorem addEdgeStep_append (acc : List FlowEdge × List String) (e : FragEdge) :
    ∃ t, addEdgeStep acc e = (acc.1 ++ t, acc.2 ++ t.map FlowEdge.id) := by
  unfold addEdgeStep
  dsimp only
  split
  · exact ⟨[{ id := "edge-" ++ e.source ++ "-" ++ e.target, source := e.source,
              target := e.target, type := "bezier", animated := false }], by simp⟩
  · exact ⟨[], by simp⟩

theorem addToGraph_nodes_structure (frag : Fragment) (pfx : String) (s : CanvasState) :
    ∃ t, (addToGraph frag pfx s).nodes = s.nodes ++ t := by
  unfold addToGraph
  obtain ⟨t1, h1⟩ := foldl_append_general FlowNode.id
    (addNodeStep (layoutOf frag pfx s) (allContainersOf frag pfx s))
    (addNodeStep_append _ _) (nodesToAddOf frag pfx s) (s.nodes, s.nodes.map (·.id))
  obtain ⟨t2, h2⟩ := foldl_append_general FlowNode.id
    (addContainerStep (layoutOf frag pfx s))
    (addContainerStep_append _) (containersToAddOf frag pfx s)
    ((nodesToAddOf frag pfx s).foldl
      (addNodeStep (layoutOf frag pfx s) (allContainersOf frag pfx s))
      (s.nodes, s.nodes.map (·.id)))
  refine ⟨t1 ++ t2, ?_⟩
  dsimp only
  rw [h2, h1]
  simp [List.append_assoc]

theorem addToGraph_edges_structure (frag : Fragment) (pfx : String) (s : CanvasState) :
    ∃ t, (addToGraph frag pfx s).edges = s.edges ++ t := by
  unfold addToGraph
  obtain ⟨t, h⟩ := foldl_append_general FlowEdge.id addEdgeStep addEdgeStep_append
    (prefixedEdges frag pfx) (s.edges, s.edges.map (·.id))
  exact ⟨t, by dsimp only; rw [h]⟩

theorem addToGraph_nodes_mem {s : CanvasState} {n : FlowNode} (frag : Fragment)
    (pfx : String) (h : n ∈ s.nodes) : n ∈ (addToGraph frag pfx s).nodes := by
  obtain ⟨t, ht⟩ := addToGraph_nodes_structure frag pfx s
  rw [ht]
  exact List.mem_append_left _ h

/-! # Claim theorems -/

/-- **C1** — Position stability: a record present on the canvas before any
further sequence of `addToGraph` insertions is still present afterwards with
the same id and the exact same recorded position (existing records are only
ever copied into the output, never repositioned). -/
theorem position_stability (s : CanvasState) (steps : List (Fragment × String))
    (n : FlowNode) (h : n ∈ s.nodes) :
    ∃ n' ∈ (steps.foldl (fun st fp => addToGraph fp.1 fp.2 st) s).nodes,
      n'.id = n.id ∧ n'.position = n.position := by
  suffices hmem : n ∈ (steps.foldl (fun st fp => addToGraph fp.1 fp.2 st) s).nodes by
    exact ⟨n, hmem, rfl, rfl⟩
  induction steps generalizing s with
  | nil => exact h
  | cons fp steps ih =>
    rw [List.foldl_cons]
    exact ih (addToGraph fp.1 fp.2 s) (addToGraph_nodes_mem fp.1 fp.2 h)

theorem position_stability_witness :
    ∃ n' ∈ ([(fragStem, "w0_"), (fragTall, "w1_")].foldl
        (fun st fp => addToGraph fp.1 fp.2 st) wState).nodes,
      n'.id = wRecord.id ∧ n'.position = wRecord.position :=
  position_stability wState [(fragStem, "w0_"), (fragTall, "w1_")] wRecord (by decide)

/-- **C2** — No-overlap fails on the code: after inserting the stem fragment
and then the tall-root fragment, the new top-level record `p1_P` (placed at
`y = 0` because `layoutRanks` starts `currentRankY` at 0, ignoring the
`maxExistingY` it computed) intersects the previously placed top-level record
`p0_D`.  The within-rank iteration order cannot rescue the claim: whichever of
`p0_C`/`p0_D` ends up at `x = 210` is overlapped by `p1_P`. -/
theorem no_overlap_violated_at_failing_input :
    (overlapState.nodes.any (fun a => overlapState.nodes.any (fun b =>
      a.id = "p1_P" ∧ b.id = "p0_D" ∧ a.parentNode = none ∧ b.parentNode = none
      ∧ decide (BoxesOverlap a b)))) = true
    ∧ maxExistingYOf (addToGraph fragStem "p0_" {}).nodes = 304 := by
  constructor
  · decide
  · decide

/-- **C5** (counterexample) — Rank monotonicity fails on the diamond
`A → B, B → C, A → C`: the edge `(B, C)` is in the merged filtered edge set,
both endpoints are reachable (visited by the BFS phase), yet
`rank C = 1 < rank B + 1 = 2` — the first-assignment-wins BFS gives
shortest-path-like ranks, not monotone ones. -/
theorem rank_monotonicity_diamond_counterexample :
    ("B", "C") ∈ filteredEdges diamondNodes diamondEdges []
    ∧ "B" ∈ (bfsPhase diamondNodes diamondEdges []).visited
    ∧ "C" ∈ (bfsPhase diamondNodes diamondEdges []).visited
    ∧ rankLookup (ranksOf diamondNodes diamondEdges []) "C"
        < rankLookup (ranksOf diamondNodes diamondEdges []) "B" + 1 := by
  decide

/-- **C6** (counterexample) — The part_001 `addToGraph` performs no root check:
inserting the non-empty rootless cycle `X ⇄ Y` (every node has an incoming
edge) mutates the canvas node collection instead of abandoning the insertion. -/
theorem missing_root_not_aborted_part001 :
    cycFrag.nodes.all (fun n => cycFrag.edges.any (fun e => e.target = n.id)) = true
    ∧ cycFrag.nodes ≠ []
    ∧ (addToGraph cycFrag "p_" {}).nodes ≠ ({} : CanvasState).nodes := by
  decide

/-- **C6** (amended) — In the prefix-isolating App.vue variant, when no
individual node of the fragment is free of incoming edges the call reports the
problem and returns with the canvas's node and edge collections exactly as
they were (only the prefix counter advances). -/
theorem addSubGraphV1_missing_root_preserves (graphData : Fragment) (st : CanvasV)
    (h : v1RootNode graphData ("subgraph_" ++ toString st.subGraphCounter ++ "_") = none) :
    (addSubGraphV1 graphData st).nodes = st.nodes
    ∧ (addSubGraphV1 graphData st).edges = st.edges := by
  constructor <;> simp [addSubGraphV1, h]

theorem addSubGraphV1_missing_root_preserves_witness :
    (addSubGraphV1 cycFrag { nodes := [], edges := [], subGraphCounter := 0 }).nodes
        = ({ nodes := [], edges := [], subGraphCounter := 0 } : CanvasV).nodes
    ∧ (addSubGraphV1 cycFrag { nodes := [], edges := [], subGraphCounter := 0 }).edges
        = ({ nodes := [], edges := [], subGraphCounter := 0 } : CanvasV).edges :=
  addSubGraphV1_missing_root_preserves cycFrag _ (by decide)

/-- **C7** (counterexample) — The part_001 `addToGraph` performs no endpoint
check: the fragment edge `A → B` with `B` absent everywhere is still emitted
into the output edge records (its target `p_B` matches no node record). -/
theorem dangling_edge_emitted_part001 :
    dangState.edges.any (fun e => e.id = "edge-p_A-p_B" ∧ e.target = "p_B") = true
    ∧ dangState.nodes.all (fun n => ¬ n.id = "p_B") = true := by
  decide

/-- **C10** (counterexample) — The share-nodes App.vue variant does not leave
every pre-existing record's fields unchanged: linking existing `C` to the new
node `Z` creates a temp root and rewrites `C`'s `type` field from `'default'`
to `'custom'` in place, so `C`'s original record is gone from the
post-insertion collection. -/
theorem type_field_mutated_by_addSubGraphV2 :
    preMutState.nodes.all (fun n => postMutState.nodes.any (fun m => m = n)) = false
    ∧ preMutState.nodes.any (fun n => n.id = "C" ∧ n.type = "default") = true
    ∧ postMutState.nodes.any (fun n => n.id = "C" ∧ n.type = "custom") = true := by
  decide

theorem edgeStepP0_cases (flowNodes : List FlowNode) (newEdges : List FragEdge)
    (orig : List String) (acc : List FlowEdge × List String) (edge : FragEdge) :
    edgeStepP0 flowNodes newEdges orig acc edge = acc
    ∨ (flowNodes.any (fun n => n.id = edge.source) = true
       ∧ flowNodes.any (fun n => n.id = edge.target) = true
       ∧ ∃ r, edgeStepP0 flowNodes newEdges orig acc edge = (acc.1 ++ [r], acc.2 ++ [r.id])
            ∧ r.source = edge.source ∧ r.target = edge.target) := by
  unfold edgeStepP0
  dsimp only
  split
  · exact Or.inl rfl
  · split
    · exact Or.inl rfl
    · split
      · exact Or.inl rfl
      · rename_i hex _
        push_neg at hex
        refine Or.inr ⟨by simpa using hex.1, by simpa using hex.2, ?_⟩
        dsimp only
        split
        · exact ⟨_, rfl, rfl, rfl⟩
        · exact ⟨_, rfl, rfl, rfl⟩

theorem edgeFoldP0_endpoints (flowNodes : List FlowNode) (newEdges : List FragEdge)
    (orig : List String) :
    ∀ (l : List FragEdge) (acc : List FlowEdge × List String) (e : FlowEdge),
      e ∈ (l.foldl (edgeStepP0 flowNodes newEdges orig) acc).1 →
      e ∈ acc.1
      ∨ (flowNodes.any (fun n => n.id = e.source) = true
         ∧ flowNodes.any (fun n => n.id = e.target) = true) := by
  intro l
  induction l with
  | nil => exact fun acc e he => Or.inl he
  | cons edge l ih =>
    intro acc e he
    rw [List.foldl_cons] at he
    rcases edgeStepP0_cases flowNodes newEdges orig acc edge with hstep | ⟨hs, ht, r, hstep, hrs, hrt⟩
    · rw [hstep] at he
      exact ih acc e he
    · rw [hstep] at he
      rcases ih _ e he with hmem | hgood
      · rcases List.mem_append.mp hmem with hmem | hr
        · exact Or.inl hmem
        · right
          rcases List.mem_singleton.mp hr with rfl
          rw [hrs, hrt]
          exact ⟨hs, ht⟩
      · exact Or.inr hgood

/-- **C7** (amended) — In the part_000 / App.vue edge phase, every edge record
that is new (not among the previous edge records) has both its endpoints
present among the canvas node records: an edge whose source or target is
missing is skipped (and reported via `console.warn`), while the loop continues
with the remaining edges.  (The part_001 unified `addToGraph` performs no such
check — see the counterexample.) -/
theorem dangling_edge_excluded_p0 (flowNodes : List FlowNode) (prevEdges : List FlowEdge)
    (prefixEdges newEdges : List FragEdge) (orig : List String) (e : FlowEdge)
    (he : e ∈ buildEdgesP0 flowNodes prevEdges prefixEdges newEdges orig)
    (hnew : e ∉ prevEdges) :
    flowNodes.any (fun n => n.id = e.source) = true
    ∧ flowNodes.any (fun n => n.id = e.target) = true := by
  unfold buildEdgesP0 at he
  rcases edgeFoldP0_endpoints flowNodes newEdges orig prefixEdges _ e he with h | h
  · exact absurd h hnew
  · exact h

theorem dangling_edge_excluded_p0_witness :
    p0FlowNodes.any (fun n => n.id = p0Emitted.source) = true
    ∧ p0FlowNodes.any (fun n => n.id = p0Emitted.target) = true :=
  dangling_edge_excluded_p0 p0FlowNodes [] [⟨"o", "c1"⟩, ⟨"o", "zz"⟩] [⟨"o", "c1"⟩, ⟨"o", "zz"⟩]
    ["o"] p0Emitted (by decide) (by decide)

theorem listLeads_append (p t : List Char) : listLeads p (p ++ t) = true := by
  induction p with
  | nil => rfl
  | cons a as ih => simp [listLeads, ih]

theorem replaceOnceL_self_append (p t : List Char) : replaceOnceL p (p ++ t) = t := by
  cases p with
  | nil =>
    cases t with
    | nil => rfl
    | cons c cs => simp [replaceOnceL, listLeads]
  | cons a as =>
    have h1 : listLeads (a :: as) (a :: (as ++ t)) = true := listLeads_append (a :: as) t
    show replaceOnceL (a :: as) (a :: (as ++ t)) = t
    simp only [replaceOnceL, h1, if_true]
    have h2 : a :: (as ++ t) = (a :: as) ++ t := rfl
    rw [h2, List.drop_left]

theorem replaceOnce_prefixed (pfx s : String) : replaceOnce (pfx ++ s) pfx = s := by
  cases pfx with
  | mk pd =>
    cases s with
    | mk sd =>
      show String.mk (replaceOnceL pd (pd ++ sd)) = String.mk sd
      rw [replaceOnceL_self_append]

theorem find?_imp_any {α : Type} {p : α → Bool} {l : List α} {x : α}
    (h : l.find? p = some x) : l.any p = true :=
  List.any_eq_true.mpr ⟨x, List.mem_of_find?_eq_some h, List.find?_some h⟩

theorem edgeStepV1_cases (flowNodes : List FlowNode) (newEdges : List FragEdge)
    (pfx : String) (acc : List FlowEdge × List String) (edge : FragEdge) :
    edgeStepV1 flowNodes newEdges pfx acc edge = acc
    ∨ ∃ r, edgeStepV1 flowNodes newEdges pfx acc edge = (acc.1 ++ [r], acc.2 ++ [r.id])
         ∧ r.source = edge.source ∧ r.target = edge.target := by
  unfold edgeStepV1
  dsimp only
  split
  · exact Or.inl rfl
  · split
    · exact Or.inl rfl
    · split
      · exact Or.inr ⟨_, rfl, rfl, rfl⟩
      · exact Or.inl rfl

theorem edgeStepV1_append (flowNodes : List FlowNode) (newEdges : List FragEdge)
    (pfx : String) (acc : List FlowEdge × List String) (edge : FragEdge) :
    ∃ t, edgeStepV1 flowNodes newEdges pfx acc edge
      = (acc.1 ++ t, acc.2 ++ t.map FlowEdge.id) := by
  rcases edgeStepV1_cases flowNodes newEdges pfx acc edge with h | ⟨r, h, _, _⟩
  · exact ⟨[], by simp [h]⟩
  · exact ⟨[r], by simp [h]⟩

theorem edgeFoldV1_explicit (flowNodes : List FlowNode) (newEdges : List FragEdge)
    (pfx : String) :
    ∀ (l : List FragEdge) (acc : List FlowEdge × List String) (e : FlowEdge),
      (∀ edge ∈ l, ∃ x ∈ newEdges,
        edge.source = pfx ++ x.source ∧ edge.target = pfx ++ x.target) →
      e ∈ (l.foldl (edgeStepV1 flowNodes newEdges pfx) acc).1 →
      e ∈ acc.1
      ∨ newEdges.any (fun x => x.source = replaceOnce e.source pfx
          ∧ x.target = replaceOnce e.target pfx) = true := by
  intro l
  induction l with
  | nil => exact fun acc e _ he => Or.inl he
  | cons edge l ih =>
    intro acc e hl he
    rw [List.foldl_cons] at he
    have hl' : ∀ edge' ∈ l, ∃ x ∈ newEdges,
        edge'.source = pfx ++ x.source ∧ edge'.target = pfx ++ x.target :=
      fun edge' h' => hl edge' (List.mem_cons_of_mem _ h')
    rcases edgeStepV1_cases flowNodes newEdges pfx acc edge with hstep | ⟨r, hstep, hrs, hrt⟩
    · rw [hstep] at he
      exact ih acc e hl' he
    · rw [hstep] at he
      rcases ih _ e hl' he with hmem | hgood
      · rcases List.mem_append.mp hmem with hmem | hr
        · exact Or.inl hmem
        · right
          rcases List.mem_singleton.mp hr with rfl
          obtain ⟨x, hx, hxs, hxt⟩ := hl edge (List.mem_cons_self _ _)
          refine List.any_eq_true.mpr ⟨x, hx, ?_⟩
          rw [hrs, hrt, hxs, hxt, replaceOnce_prefixed, replaceOnce_prefixed]
          simp
      · exact Or.inr hgood

theorem edgeStepV1_outside_emits (flowNodes : List FlowNode) (newEdges : List FragEdge)
    (pfx : String) (acc : List FlowEdge × List String) (edge : FragEdge) (sn : FlowNode)
    (hfind : flowNodes.find? (fun n => n.id = edge.source) = some sn)
    (hsn : sn.parentNode = none)
    (ht : flowNodes.any (fun n => n.id = edge.target) = true) :
    ("edge-" ++ edge.source ++ "-" ++ edge.target)
      ∈ (edgeStepV1 flowNodes newEdges pfx acc edge).2 := by
  have hs : flowNodes.any (fun n => n.id = edge.source) = true := find?_imp_any hfind
  have hsup : edgeSameContainerSuppressedV1 flowNodes newEdges pfx edge = false := by
    unfold edgeSameContainerSuppressedV1
    rw [hfind]
    cases hft : flowNodes.find? (fun n => n.id = edge.target) with
    | none => rfl
    | some tn =>
      dsimp only
      rw [hsn]
  unfold edgeStepV1
  dsimp only
  rw [if_neg (by simp [hs, ht]), hsup]
  simp only [Bool.false_eq_true, if_false]
  split
  · rename_i hc
    exact List.mem_append_right _ (List.mem_singleton.mpr rfl)
  · rename_i hc
    simp only [not_not] at hc
    exact (by simpa using hc)

theorem edgeFoldV1_mem_ids (flowNodes : List FlowNode) (newEdges : List FragEdge)
    (pfx : String) :
    ∀ (l : List FragEdge) (acc : List FlowEdge × List String) (i : String),
      i ∈ acc.2 → i ∈ (l.foldl (edgeStepV1 flowNodes newEdges pfx) acc).2 := by
  intro l
  induction l with
  | nil => exact fun acc i hi => hi
  | cons edge l ih =>
    intro acc i hi
    rw [List.foldl_cons]
    refine ih _ i ?_
    obtain ⟨t, ht⟩ := edgeStepV1_append flowNodes newEdges pfx acc edge
    rw [ht]
    exact List.mem_append_left _ hi

theorem edgeFoldV1_emits (flowNodes : List FlowNode) (newEdges : List FragEdge)
    (pfx : String) :
    ∀ (l : List FragEdge) (acc : List FlowEdge × List String) (edge : FragEdge)
      (sn : FlowNode),
      edge ∈ l →
      flowNodes.find? (fun n => n.id = edge.source) = some sn →
      sn.parentNode = none →
      flowNodes.any (fun n => n.id = edge.target) = true →
      ("edge-" ++ edge.source ++ "-" ++ edge.target)
        ∈ (l.foldl (edgeStepV1 flowNodes newEdges pfx) acc).2 := by
  intro l
  induction l with
  | nil => intro acc edge sn h; simp at h
  | cons edge0 l ih =>
    intro acc edge sn hmem hfind hsn ht
    rw [List.foldl_cons]
    rcases List.mem_cons.mp hmem with rfl | hmem
    · exact edgeFoldV1_mem_ids flowNodes newEdges pfx l _ _
        (edgeStepV1_outside_emits flowNodes newEdges pfx acc edge sn hfind hsn ht)
    · exact ih _ edge sn hmem hfind hsn ht

theorem edgeFoldV1_ids_are_record_ids (flowNodes : List FlowNode)
    (newEdges : List FragEdge) (pfx : String) (l : List FragEdge)
    (acc : List FlowEdge × List String) (hacc : acc.2 = acc.1.map FlowEdge.id) :
    (l.foldl (edgeStepV1 flowNodes newEdges pfx) acc).2
      = (l.foldl (edgeStepV1 flowNodes newEdges pfx) acc).1.map FlowEdge.id := by
  obtain ⟨t, htt⟩ := foldl_append_general FlowEdge.id (edgeStepV1 flowNodes newEdges pfx)
    (edgeStepV1_append flowNodes newEdges pfx) l acc
  rw [htt]
  simp [hacc]

/-- **C8** — Same-container edge suppression in the prefix-isolating App.vue
edge phase: (1) every newly emitted edge record corresponds to an explicitly
declared pair of the original (unprefixed) fragment edge list — in particular
an implied same-container edge that was not explicitly declared can never
appear; (2) an edge whose source record lies outside any container (no
`parentNode`) and whose target record exists is always emitted. -/
theorem same_container_edge_suppression (flowNodes : List FlowNode)
    (prevEdges : List FlowEdge) (newEdges : List FragEdge) (pfx : String) :
    (∀ e ∈ buildEdgesV1 flowNodes prevEdges
        (newEdges.map (fun x => FragEdge.mk (pfx ++ x.source) (pfx ++ x.target)))
        newEdges pfx,
      e ∈ prevEdges
      ∨ newEdges.any (fun x => x.source = replaceOnce e.source pfx
          ∧ x.target = replaceOnce e.target pfx) = true)
    ∧ (∀ edge ∈ newEdges.map (fun x => FragEdge.mk (pfx ++ x.source) (pfx ++ x.target)),
        ∀ sn, flowNodes.find? (fun n => n.id = edge.source) = some sn →
          sn.parentNode = none →
          flowNodes.any (fun n => n.id = edge.target) = true →
          ("edge-" ++ edge.source ++ "-" ++ edge.target)
            ∈ (buildEdgesV1 flowNodes prevEdges
                (newEdges.map (fun x => FragEdge.mk (pfx ++ x.source) (pfx ++ x.target)))
                newEdges pfx).map FlowEdge.id) := by
  constructor
  · intro e he
    unfold buildEdgesV1 at he
    refine edgeFoldV1_explicit flowNodes newEdges pfx _ _ e ?_ he
    intro edge hedge
    obtain ⟨x, hx, hxe⟩ := List.mem_map.mp hedge
    exact ⟨x, hx, by rw [← hxe], by rw [← hxe]⟩
  · intro edge hedge sn hfind hsn ht
    unfold buildEdgesV1
    rw [← edgeFoldV1_ids_are_record_ids flowNodes newEdges pfx _ _ (by simp)]
    exact edgeFoldV1_emits flowNodes newEdges pfx _ _ edge sn hedge hfind hsn ht

theorem same_container_edge_suppression_witness :
    (v1Emitted ∈ ([] : List FlowEdge)
      ∨ v1NewEdges.any (fun x => x.source = replaceOnce v1Emitted.source "p_"
          ∧ x.target = replaceOnce v1Emitted.target "p_") = true)
    ∧ ("edge-" ++ ("p_" ++ "o") ++ "-" ++ ("p_" ++ "c1"))
        ∈ (buildEdgesV1 v1FlowNodes []
            (v1NewEdges.map (fun x => FragEdge.mk ("p_" ++ x.source) ("p_" ++ x.target)))
            v1NewEdges "p_").map FlowEdge.id := by
  obtain ⟨h1, h2⟩ := same_container_edge_suppression v1FlowNodes [] v1NewEdges "p_"
  constructor
  · exact h1 v1Emitted (by decide)
  · exact h2 (FragEdge.mk ("p_" ++ "o") ("p_" ++ "c1")) (by decide)
      { id := "p_o", position := ⟨0, 0⟩ } (by decide) (by decide) (by decide)

theorem insertByKey_perm {α : Type} (key : α → Int) (a : α) (l : List α) :
    (insertByKey key a l).Perm (a :: l) := by
  induction l with
  | nil => exact List.Perm.refl _
  | cons b bs ih =>
    unfold insertByKey
    split
    · exact (ih.cons b).trans (List.Perm.swap a b bs)
    · exact List.Perm.refl _

theorem stableSortByKey_perm {α : Type} (key : α → Int) (l : List α) :
    (stableSortByKey key l).Perm l := by
  induction l with
  | nil => exact List.Perm.refl _
  | cons a as ih =>
    unfold stableSortByKey
    exact (insertByKey_perm key a _).trans (ih.cons a)

theorem sortedContainerChildren_perm (childNodes : List FragNode)
    (childEdges : List (String × String)) :
    (sortedContainerChildren childNodes childEdges).Perm childNodes := by
  unfold sortedContainerChildren
  split
  · exact stableSortByKey_perm _ _
  · exact List.Perm.refl _

theorem containerChildFold (l : List FragNode) :
    ∀ (acc : List (String × Pos)) (mw y0 : Int),
      l.foldl containerChildStep (acc, mw, y0)
        = (acc ++ columnPositions l y0,
           (l.map (fun n => jsOr n.width NODE_WIDTH)).foldl max mw,
           y0 + (l.map (fun n => jsOr n.height NODE_HEIGHT + CONTAINER_CHILD_GAP)).sum) := by
  induction l with
  | nil => intro acc mw y0; simp [columnPositions]
  | cons c cs ih =>
    intro acc mw y0
    rw [List.foldl_cons]
    show cs.foldl containerChildStep
        (acc ++ [(c.id, ⟨CONTAINER_PADDING, y0⟩)], max mw (jsOr c.width NODE_WIDTH),
         y0 + jsOr c.height NODE_HEIGHT + CONTAINER_CHILD_GAP) = _
    rw [ih]
    simp only [columnPositions, List.map_cons, List.foldl_cons, List.sum_cons,
      List.append_assoc, List.cons_append, List.nil_append, Prod.mk.injEq]
    exact ⟨trivial, trivial, by ring⟩

theorem columnPositions_x (l : List FragNode) :
    ∀ (y0 : Int) (p : String × Pos), p ∈ columnPositions l y0 →
      p.2.x = CONTAINER_PADDING := by
  induction l with
  | nil => intro y0 p hp; simp [columnPositions] at hp
  | cons c cs ih =>
    intro y0 p hp
    simp only [columnPositions] at hp
    rcases List.mem_cons.mp hp with rfl | hp
    · rfl
    · exact ih _ p hp

theorem sum_map_add_const (l : List FragNode) (f : FragNode → Int) (c : Int) :
    (l.map (fun n => f n + c)).sum = (l.map f).sum + l.length * c := by
  induction l with
  | nil => simp
  | cons a as ih =>
    simp only [List.map_cons, List.sum_cons, List.length_cons, ih]
    push_cast
    ring

/-- **C9** — Container interior layout: the children are laid out in the BFS /
fallback order (a permutation of the input children) as a single vertical
column — every child at left inset `CONTAINER_PADDING`, each one
`CONTAINER_CHILD_GAP` below the previous child's bottom edge, the first at
`y = CONTAINER_PADDING` — and the returned size is
`widest child + 2·padding` by `sum of heights + gaps + 2·padding`. -/
theorem container_interior_layout (childNodes : List FragNode)
    (childEdges : List (String × String)) (h : childNodes ≠ []) :
    (sortedContainerChildren childNodes childEdges).Perm childNodes
    ∧ (layoutContainerChildren childNodes childEdges).childPositions
        = columnPositions (sortedContainerChildren childNodes childEdges) CONTAINER_PADDING
    ∧ (∀ p ∈ (layoutContainerChildren childNodes childEdges).childPositions,
        p.2.x = CONTAINER_PADDING)
    ∧ (layoutContainerChildren childNodes childEdges).width
        = (childNodes.map (fun n => jsOr n.width NODE_WIDTH)).foldl max 0
          + 2 * CONTAINER_PADDING
    ∧ (layoutContainerChildren childNodes childEdges).height
        = (childNodes.map (fun n => jsOr n.height NODE_HEIGHT)).sum
          + ((childNodes.length - 1 : Nat) : Int) * CONTAINER_CHILD_GAP
          + 2 * CONTAINER_PADDING := by
  have hperm := sortedContainerChildren_perm childNodes childEdges
  have hcl : layoutContainerChildren childNodes childEdges
      = { childPositions :=
            columnPositions (sortedContainerChildren childNodes childEdges) CONTAINER_PADDING
          width := ((sortedContainerChildren childNodes childEdges).map
              (fun n => jsOr n.width NODE_WIDTH)).foldl max 0 + CONTAINER_PADDING * 2
          height := CONTAINER_PADDING
            + ((sortedContainerChildren childNodes childEdges).map
                (fun n => jsOr n.height NODE_HEIGHT + CONTAINER_CHILD_GAP)).sum
            - CONTAINER_CHILD_GAP + CONTAINER_PADDING } := by
    unfold layoutContainerChildren
    dsimp only
    rw [containerChildFold]
    simp
  have hrc : RightCommutative (max : Int → Int → Int) :=
    ⟨fun a b c => by rw [max_assoc, max_comm b c, ← max_assoc]⟩
  refine ⟨hperm, by rw [hcl], ?_, ?_, ?_⟩
  · rw [hcl]
    exact fun p hp => columnPositions_x _ _ p hp
  · rw [hcl]
    have hw := @List.Perm.foldl_eq Int Int max _ _ hrc
      (hperm.map (fun n => jsOr n.width NODE_WIDTH)) 0
    dsimp only
    rw [hw]
    ring
  · rw [hcl]
    dsimp only
    rw [sum_map_add_const]
    have hsum := (hperm.map (fun n => jsOr n.height NODE_HEIGHT)).sum_eq
    have hlen : (sortedContainerChildren childNodes childEdges).length
        = childNodes.length := hperm.length_eq
    rw [hsum, hlen]
    have hpos : 1 ≤ childNodes.length := by
      cases childNodes with
      | nil => exact absurd rfl h
      | cons a as => exact Nat.succ_le_succ (Nat.zero_le _)
    have hcast : ((childNodes.length - 1 : Nat) : Int)
        = (childNodes.length : Int) - 1 := by
      omega
    rw [hcast]
    ring

theorem container_interior_layout_witness :
    (sortedContainerChildren wChildren wChildEdges).Perm wChildren
    ∧ (layoutContainerChildren wChildren wChildEdges).childPositions
        = columnPositions (sortedContainerChildren wChildren wChildEdges) CONTAINER_PADDING
    ∧ (∀ p ∈ (layoutContainerChildren wChildren wChildEdges).childPositions,
        p.2.x = CONTAINER_PADDING)
    ∧ (layoutContainerChildren wChildren wChildEdges).width
        = (wChildren.map (fun n => jsOr n.width NODE_WIDTH)).foldl max 0
          + 2 * CONTAINER_PADDING
    ∧ (layoutContainerChildren wChildren wChildEdges).height
        = (wChildren.map (fun n => jsOr n.height NODE_HEIGHT)).sum
          + ((wChildren.length - 1 : Nat) : Int) * CONTAINER_CHILD_GAP
          + 2 * CONTAINER_PADDING :=
  container_interior_layout wChildren wChildEdges (by decide)

theorem outTargets_mem {es : List (String × String)} {id t : String}
    (h : t ∈ outTargets es id) : (id, t) ∈ es := by
  unfold outTargets at h
  obtain ⟨e, he, het⟩ := List.mem_map.mp h
  obtain ⟨hes, hid⟩ := List.mem_filter.mp he
  have hid' : e.1 = id := by simpa using hid
  have : e = (id, t) := by
    cases e
    simp only [Prod.mk.injEq]
    exact ⟨hid', het⟩
  rwa [this] at hes

theorem GoodEntry.mono {es : List (String × String)} {R R' : List (String × Nat)}
    {p : String × Nat} (h : GoodEntry es R p) (hsub : ∀ q ∈ R, q ∈ R') :
    GoodEntry es R' p := by
  rcases h with h0 | ⟨u, r, h1, h2, h3⟩
  · exact Or.inl h0
  · exact Or.inr ⟨u, r, h1, hsub _ h2, h3⟩

theorem bfsInner_spec (rk : Nat) (ts : List String) :
    ∀ (q : List (String × Nat)) (st : BfsSt),
      ∃ Δ : List (String × Nat),
        ts.foldl (bfsEnqueueStep rk) (q, st)
          = (q ++ Δ, ⟨st.visited ++ Δ.map Prod.fst, st.ranks ++ Δ⟩)
        ∧ (∀ p ∈ Δ, p.2 = rk + 1 ∧ p.1 ∈ ts)
        ∧ (st.visited.Nodup → (st.visited ++ Δ.map Prod.fst).Nodup) := by
  induction ts with
  | nil =>
    intro q st
    exact ⟨[], by simp, by simp, by simp⟩
  | cons t ts ih =>
    intro q st
    rw [List.foldl_cons]
    by_cases hv : st.visited.contains t = true
    · have hds : bfsEnqueueStep rk (q, st) t = (q, st) := by
        unfold bfsEnqueueStep
        dsimp only
        rw [if_pos hv]
      rw [hds]
      obtain ⟨Δ, h1, h2, h3⟩ := ih q st
      refine ⟨Δ, h1, fun p hp => ?_, h3⟩
      obtain ⟨hr, hm⟩ := h2 p hp
      exact ⟨hr, List.mem_cons_of_mem _ hm⟩
    · have hds : bfsEnqueueStep rk (q, st) t
          = (q ++ [(t, rk + 1)], ⟨st.visited ++ [t], st.ranks ++ [(t, rk + 1)]⟩) := by
        unfold bfsEnqueueStep
        dsimp only
        rw [if_neg hv]
      rw [hds]
      obtain ⟨Δ, h1, h2, h3⟩ :=
        ih (q ++ [(t, rk + 1)]) ⟨st.visited ++ [t], st.ranks ++ [(t, rk + 1)]⟩
      refine ⟨(t, rk + 1) :: Δ, ?_, ?_, ?_⟩
      · rw [h1]
        simp [List.append_assoc]
      · intro p hp
        rcases List.mem_cons.mp hp with rfl | hp
        · exact ⟨rfl, List.mem_cons_self _ _⟩
        · obtain ⟨hr, hm⟩ := h2 p hp
          exact ⟨hr, List.mem_cons_of_mem _ hm⟩
      · intro hnd
        have htni : t ∉ st.visited := by simpa using hv
        have hnd' : (st.visited ++ [t]).Nodup := by
          simp [List.nodup_append, hnd, htni]
        have := h3 hnd'
        simpa [List.append_assoc] using this

theorem bfsLoop_spec (es : List (String × String)) :
    ∀ (fuel : Nat) (q : List (String × Nat)) (st : BfsSt),
      ∃ Δ : List (String × Nat),
        bfsLoop es fuel q st = ⟨st.visited ++ Δ.map Prod.fst, st.ranks ++ Δ⟩
        ∧ ((∀ p ∈ q, p ∈ st.ranks) → ∀ p ∈ Δ,
            1 ≤ p.2 ∧ ∃ u r, (u, p.1) ∈ es ∧ (u, r) ∈ st.ranks ++ Δ ∧ p.2 = r + 1)
        ∧ (st.visited.Nodup → (st.visited ++ Δ.map Prod.fst).Nodup) := by
  intro fuel
  induction fuel with
  | zero =>
    intro q st
    exact ⟨[], by simp [bfsLoop], by simp, by simp⟩
  | succ fuel ih =>
    intro q st
    cases q with
    | nil => exact ⟨[], by simp [bfsLoop], by simp, by simp⟩
    | cons hd rest =>
      obtain ⟨id, rk⟩ := hd
      obtain ⟨Δ₀, hi1, hi2, hi3⟩ := bfsInner_spec rk (outTargets es id) rest st
      obtain ⟨Δ₁, hl1, hl2, hl3⟩ :=
        ih (rest ++ Δ₀) ⟨st.visited ++ Δ₀.map Prod.fst, st.ranks ++ Δ₀⟩
      refine ⟨Δ₀ ++ Δ₁, ?_, ?_, ?_⟩
      · show bfsLoop es (fuel + 1) ((id, rk) :: rest) st = _
        rw [bfsLoop, hi1]
        dsimp only
        rw [hl1]
        simp [List.append_assoc]
      · intro hq p hp
        rcases List.mem_append.mp hp with hp0 | hp1
        · obtain ⟨hr, hm⟩ := hi2 p hp0
          refine ⟨by omega, id, rk, outTargets_mem hm, ?_, hr⟩
          exact List.mem_append_left _ (hq _ (List.mem_cons_self _ _))
        · have hq' : ∀ p' ∈ rest ++ Δ₀, p' ∈ st.ranks ++ Δ₀ := by
            intro p' hp'
            rcases List.mem_append.mp hp' with h | h
            · exact List.mem_append_left _ (hq _ (List.mem_cons_of_mem _ h))
            · exact List.mem_append_right _ h
          obtain ⟨hpos, u, r, h1, h2, h3⟩ := hl2 hq' p hp1
          refine ⟨hpos, u, r, h1, ?_, h3⟩
          simpa [List.append_assoc] using h2
      · intro hnd
        have := hl3 (hi3 hnd)
        simpa [List.append_assoc] using this

theorem bfsFromRoot_shape (es : List (String × String)) (fuel : Nat) (root : String)
    (st : BfsSt) :
    ∃ t, (bfsFromRoot es fuel root st).visited = st.visited ++ (root :: t) := by
  unfold bfsFromRoot
  obtain ⟨Δ, h1, _, _⟩ := bfsLoop_spec es fuel [(root, 0)] ⟨st.visited ++ [root], st.ranks ++ [(root, 0)]⟩
  rw [h1]
  exact ⟨Δ.map Prod.fst, by simp [List.append_assoc]⟩

theorem rootsStep_ok (es : List (String × String)) (fuel : Nat) (st : BfsSt)
    (id : String) (h : PhaseOk es st) : PhaseOk es (rootsStep es fuel st id) := by
  unfold rootsStep
  split
  case isFalse => exact h
  case isTrue hcond =>
    obtain ⟨hvis, hnin⟩ := hcond
    obtain ⟨hpair, hnd, hzero, hgood⟩ := h
    unfold bfsFromRoot
    obtain ⟨Δ, h1, h2, h3⟩ := bfsLoop_spec es fuel [(id, 0)]
      ⟨st.visited ++ [id], st.ranks ++ [(id, 0)]⟩
    rw [h1]
    have hq0 : ∀ p ∈ [(id, (0 : Nat))], p ∈ st.ranks ++ [(id, 0)] := by
      intro p hp
      rcases List.mem_singleton.mp hp with rfl
      exact List.mem_append_right _ (List.mem_singleton.mpr rfl)
    have hΔ := h2 hq0
    have hidnv : id ∉ st.visited := by simpa using hvis
    refine ⟨?_, ?_, ?_, ?_⟩
    · dsimp only
      rw [hpair]
      simp [List.append_assoc]
    · dsimp only
      refine h3 ?_
      simp [List.nodup_append, hnd, hidnv]
    · dsimp only
      intro p hp hp0
      rcases List.mem_append.mp hp with hp' | hpΔ
      · rcases List.mem_append.mp hp' with hpold | hproot
        · exact hzero p hpold hp0
        · rcases List.mem_singleton.mp hproot with rfl
          simpa using hnin
      · obtain ⟨hpos, _⟩ := hΔ p hpΔ
        omega
    · dsimp only
      intro p hp
      rcases List.mem_append.mp hp with hp' | hpΔ
      · rcases List.mem_append.mp hp' with hpold | hproot
        · refine (hgood p hpold).mono ?_
          intro q hq
          exact List.mem_append_left _ (List.mem_append_left _ hq)
        · rcases List.mem_singleton.mp hproot with rfl
          exact Or.inl rfl
      · obtain ⟨_, u, r, hu1, hu2, hu3⟩ := hΔ p hpΔ
        refine Or.inr ⟨u, r, hu1, ?_, hu3⟩
        simpa [List.append_assoc] using hu2

theorem rootsFold_ok (es : List (String × String)) (fuel : Nat) :
    ∀ (ids : List String) (st : BfsSt), PhaseOk es st →
      PhaseOk es (ids.foldl (rootsStep es fuel) st) := by
  intro ids
  induction ids with
  | nil => exact fun st h => h
  | cons a as ih =>
    intro st h
    rw [List.foldl_cons]
    exact ih _ (rootsStep_ok es fuel st a h)

theorem phaseOk_empty (es : List (String × String)) : PhaseOk es ⟨[], []⟩ := by
  refine ⟨rfl, List.nodup_nil, ?_, ?_⟩ <;> intro p hp <;> simp at hp

theorem bfsPhase_ok (ns : List FragNode) (aes : List (String × String))
    (cs : List FragContainer) :
    PhaseOk (filteredEdges ns aes cs) (bfsPhase ns aes cs) := by
  unfold bfsPhase
  exact rootsFold_ok _ _ _ _ (phaseOk_empty _)

theorem rootsStep_visited_mono (es : List (String × String)) (fuel : Nat)
    (st : BfsSt) (id : String) :
    ∃ t, (rootsStep es fuel st id).visited = st.visited ++ t := by
  unfold rootsStep
  split
  · obtain ⟨t, ht⟩ := bfsFromRoot_shape es fuel id st
    exact ⟨id :: t, ht⟩
  · exact ⟨[], by simp⟩

theorem rootsFold_visited_mono (es : List (String × String)) (fuel : Nat) :
    ∀ (ids : List String) (st : BfsSt),
      ∃ t, (ids.foldl (rootsStep es fuel) st).visited = st.visited ++ t := by
  intro ids
  induction ids with
  | nil => exact fun st => ⟨[], by simp⟩
  | cons a as ih =>
    intro st
    rw [List.foldl_cons]
    obtain ⟨t1, h1⟩ := rootsStep_visited_mono es fuel st a
    obtain ⟨t2, h2⟩ := ih (rootsStep es fuel st a)
    exact ⟨t1 ++ t2, by rw [h2, h1, List.append_assoc]⟩

theorem rootsFold_reach (es : List (String × String)) (fuel : Nat) :
    ∀ (ids : List String) (st : BfsSt) (id : String),
      id ∈ ids → hasIncoming es id = false →
      id ∈ (ids.foldl (rootsStep es fuel) st).visited := by
  intro ids
  induction ids with
  | nil => intro st id h; simp at h
  | cons a as ih =>
    intro st id hm hni
    rw [List.foldl_cons]
    by_cases ha : id = a
    · subst ha
      have hstep : id ∈ (rootsStep es fuel st id).visited := by
        unfold rootsStep
        split
        · obtain ⟨t, ht⟩ := bfsFromRoot_shape es fuel id st
          rw [ht]
          exact List.mem_append_right _ (List.mem_cons_self _ _)
        · rename_i hcond
          rw [Classical.not_and_iff_or_not_not] at hcond
          rcases hcond with hcv | hcn
          · simp only [not_not] at hcv
            simpa using hcv
          · exact absurd (by simp [hni]) hcn
      obtain ⟨t, ht⟩ := rootsFold_visited_mono es fuel as (rootsStep es fuel st id)
      rw [ht]
      exact List.mem_append_left _ hstep
    · rcases List.mem_cons.mp hm with h | h
      · exact absurd h ha
      · exact ih _ id h hni

theorem defensiveFold_shape :
    ∀ (ids : List String) (st : BfsSt),
      ∃ Δ : List (String × Nat),
        ids.foldl defensiveStep st = ⟨st.visited ++ Δ.map Prod.fst, st.ranks ++ Δ⟩
        ∧ ∀ p ∈ Δ, p.2 = 0 := by
  intro ids
  induction ids with
  | nil => intro st; exact ⟨[], by simp, by simp⟩
  | cons a as ih =>
    intro st
    rw [List.foldl_cons]
    by_cases hc : st.visited.contains a = true
    · have hds : defensiveStep st a = st := by
        unfold defensiveStep
        rw [if_pos hc]
      rw [hds]
      exact ih st
    · have hds : defensiveStep st a = ⟨st.visited ++ [a], st.ranks ++ [(a, 0)]⟩ := by
        unfold defensiveStep
        rw [if_neg hc]
      rw [hds]
      obtain ⟨Δ, h1, h2⟩ := ih ⟨st.visited ++ [a], st.ranks ++ [(a, 0)]⟩
      refine ⟨(a, 0) :: Δ, ?_, ?_⟩
      · rw [h1]
        simp [List.append_assoc]
      · intro p hp
        rcases List.mem_cons.mp hp with rfl | hp
        · rfl
        · exact h2 p hp

theorem alookup_append_right {κ α : Type} [DecidableEq κ] {l : List (κ × α)}
    (m : List (κ × α)) {k : κ} (h : k ∉ l.map Prod.fst) :
    alookup (l ++ m) k = alookup m k := by
  induction l with
  | nil => rfl
  | cons p l ih =>
    simp only [List.map_cons, List.mem_cons] at h
    push_neg at h
    rw [List.cons_append, alookup_cons, if_neg (fun hh => h.1 hh.symm)]
    exact ih h.2

theorem defensiveFold_lookup :
    ∀ (ids : List String) (st : BfsSt),
      st.visited = st.ranks.map Prod.fst →
      ∀ id ∈ ids, id ∉ st.visited →
        alookup (ids.foldl defensiveStep st).ranks id = some 0 := by
  intro ids
  induction ids with
  | nil => intro st _ id h; simp at h
  | cons a as ih =>
    intro st hpair id hm hnv
    rw [List.foldl_cons]
    by_cases ha : id = a
    · subst ha
      have hnc : ¬ st.visited.contains id = true := by simpa using hnv
      have hds : defensiveStep st id = ⟨st.visited ++ [id], st.ranks ++ [(id, 0)]⟩ := by
        unfold defensiveStep
        rw [if_neg hnc]
      rw [hds]
      obtain ⟨Δ, h1, _⟩ := defensiveFold_shape as ⟨st.visited ++ [id], st.ranks ++ [(id, 0)]⟩
      rw [h1]
      dsimp only
      have hkeys : id ∉ st.ranks.map Prod.fst := by rwa [hpair] at hnv
      have hstep : alookup (st.ranks ++ [(id, (0 : Nat))]) id = some 0 := by
        rw [alookup_append_right _ hkeys, alookup_cons]
        simp
      exact alookup_append_left _ hstep
    · have htl : id ∈ as := by
        rcases List.mem_cons.mp hm with h | h
        · exact absurd h ha
        · exact h
      unfold defensiveStep
      split
      · exact ih st hpair id htl hnv
      · refine ih ⟨st.visited ++ [a], st.ranks ++ [(a, 0)]⟩ ?_ id htl ?_
        · dsimp only
          rw [hpair]
          simp
        · dsimp only
          intro hmem
          rcases List.mem_append.mp hmem with h | h
          · exact hnv h
          · exact ha (List.mem_singleton.mp h)

theorem defensiveFold_pairing :
    ∀ (ids : List String) (st : BfsSt),
      st.visited = st.ranks.map Prod.fst → st.visited.Nodup →
      (ids.foldl defensiveStep st).visited
          = (ids.foldl defensiveStep st).ranks.map Prod.fst
        ∧ (ids.foldl defensiveStep st).visited.Nodup := by
  intro ids
  induction ids with
  | nil => exact fun st h1 h2 => ⟨h1, h2⟩
  | cons a as ih =>
    intro st h1 h2
    rw [List.foldl_cons]
    by_cases hc : st.visited.contains a = true
    · have hds : defensiveStep st a = st := by
        unfold defensiveStep
        rw [if_pos hc]
      rw [hds]
      exact ih st h1 h2
    · have hds : defensiveStep st a = ⟨st.visited ++ [a], st.ranks ++ [(a, 0)]⟩ := by
        unfold defensiveStep
        rw [if_neg hc]
      rw [hds]
      refine ih _ ?_ ?_
      · dsimp only
        rw [h1]
        simp
      · dsimp only
        have hna : a ∉ st.visited := by simpa using hc
        simp [List.nodup_append, h2, hna]

theorem hasIncoming_of_mem {es : List (String × String)} {u v : String}
    (h : (u, v) ∈ es) : hasIncoming es v = true := by
  unfold hasIncoming
  exact List.any_eq_true.mpr ⟨(u, v), h, by simp⟩

theorem bfsPhase_lookup_entry (ns : List FragNode) (aes : List (String × String))
    (cs : List FragContainer) {id : String}
    (h : id ∈ (bfsPhase ns aes cs).visited) :
    ∃ r, alookup (bfsPhase ns aes cs).ranks id = some r
      ∧ (id, r) ∈ (bfsPhase ns aes cs).ranks := by
  obtain ⟨hpair, _, _, _⟩ := bfsPhase_ok ns aes cs
  have hkeys : id ∈ (bfsPhase ns aes cs).ranks.map Prod.fst := by rwa [hpair] at h
  obtain ⟨r, hr⟩ := Option.isSome_iff_exists.mp (alookup_isSome_of_mem_keys hkeys)
  exact ⟨r, hr, alookup_mem hr⟩

theorem ranksOf_lookup_of_bfs (ns : List FragNode) (aes : List (String × String))
    (cs : List FragContainer) {id : String} {r : Nat}
    (h : alookup (bfsPhase ns aes cs).ranks id = some r) :
    alookup (ranksOf ns aes cs) id = some r := by
  obtain ⟨Δ, h1, _⟩ := defensiveFold_shape (gNodeIds ns cs) (bfsPhase ns aes cs)
  show alookup ((gNodeIds ns cs).foldl defensiveStep (bfsPhase ns aes cs)).ranks id = some r
  rw [h1]
  exact alookup_append_left _ h

theorem ranksOf_lookup_unvisited (ns : List FragNode) (aes : List (String × String))
    (cs : List FragContainer) {id : String} (hmem : id ∈ gNodeIds ns cs)
    (hv : id ∉ (bfsPhase ns aes cs).visited) :
    alookup (ranksOf ns aes cs) id = some 0 := by
  obtain ⟨hpair, _, _, _⟩ := bfsPhase_ok ns aes cs
  exact defensiveFold_lookup (gNodeIds ns cs) (bfsPhase ns aes cs) hpair id hmem hv

/-- **C4** — Rank assignment reference semantics of `computeOrdering`
(part_001 lines 100–150): an empty input yields an empty rank map; every
element with no incoming filtered edge is assigned rank 0; every element never
reached by the breadth-first phase is defensively assigned rank 0; each element
is visited at most once, so it receives at most one rank entry (the first
assignment wins, witnessed by the duplicate-free key sequence of the rank map);
and every entry produced by the breadth-first phase is discovery-justified:
rank 0, or rank = parent rank + 1 across a filtered edge from an already ranked
element. -/
theorem rank_assignment_semantics :
    (∀ aes, ranksOf [] aes [] = [])
    ∧ (∀ ns aes cs id, id ∈ gNodeIds ns cs →
        hasIncoming (filteredEdges ns aes cs) id = false →
        alookup (ranksOf ns aes cs) id = some 0)
    ∧ (∀ ns aes cs id, id ∈ gNodeIds ns cs →
        id ∉ (bfsPhase ns aes cs).visited →
        alookup (ranksOf ns aes cs) id = some 0)
    ∧ (∀ ns aes cs, ((ranksOf ns aes cs).map Prod.fst).Nodup)
    ∧ (∀ ns aes cs, ∀ p ∈ (bfsPhase ns aes cs).ranks,
        GoodEntry (filteredEdges ns aes cs) (bfsPhase ns aes cs).ranks p) := by
  refine ⟨fun aes => rfl, ?_, ?_, ?_, ?_⟩
  · intro ns aes cs id hmem hni
    by_cases hv : id ∈ (bfsPhase ns aes cs).visited
    · obtain ⟨r, hr, hmem'⟩ := bfsPhase_lookup_entry ns aes cs hv
      obtain ⟨_, _, _, hgood⟩ := bfsPhase_ok ns aes cs
      rcases hgood _ hmem' with h0 | ⟨u, r', hu, _, _⟩
      · have hr0 : r = 0 := h0
        rw [hr0] at hr
        exact ranksOf_lookup_of_bfs ns aes cs hr
      · have htrue : hasIncoming (filteredEdges ns aes cs) id = true :=
          hasIncoming_of_mem hu
        rw [hni] at htrue
        exact Bool.noConfusion htrue
    · exact ranksOf_lookup_unvisited ns aes cs hmem hv
  · intro ns aes cs id hmem hv
    exact ranksOf_lookup_unvisited ns aes cs hmem hv
  · intro ns aes cs
    obtain ⟨hpair, hnd, _, _⟩ := bfsPhase_ok ns aes cs
    obtain ⟨hpair', hnd'⟩ :=
      defensiveFold_pairing (gNodeIds ns cs) (bfsPhase ns aes cs) hpair hnd
    have h := hnd'
    rw [hpair'] at h
    exact h
  · intro ns aes cs
    exact (bfsPhase_ok ns aes cs).2.2.2

/-- Witness for C4: on concrete inputs — the empty fragment, the diamond
A→B→C, A→C, and the pure two-cycle X↔Y — the rank map is empty, the root A
gets rank 0, and the unreachable cycle member X defensively gets rank 0. -/
theorem rank_assignment_semantics_witness :
    ranksOf [] [("A", "B")] [] = []
    ∧ alookup (ranksOf diamondNodes diamondEdges []) "A" = some 0
    ∧ alookup (ranksOf cycNodes cycPairs []) "X" = some 0 := by
  refine ⟨rank_assignment_semantics.1 [("A", "B")], ?_, ?_⟩
  · exact rank_assignment_semantics.2.1 diamondNodes diamondEdges [] "A"
      (by decide) (by decide)
  · exact rank_assignment_semantics.2.2.1 cycNodes cycPairs [] "X"
      (by decide) (by decide)

/-- **C5** (amended) — Rank positivity for reached edge targets: the claimed
monotonicity `rank(v) ≥ rank(u) + 1` fails (see the counterexample), but every
filtered-edge target that the breadth-first phase reaches is assigned a rank of
at least 1 — only roots and defensively ranked unreachable elements carry
rank 0. -/
theorem reachable_edge_target_rank_positive (ns : List FragNode)
    (aes : List (String × String)) (cs : List FragContainer) (u v : String)
    (he : (u, v) ∈ filteredEdges ns aes cs)
    (hv : v ∈ (bfsPhase ns aes cs).visited) :
    ∃ r, alookup (ranksOf ns aes cs) v = some r ∧ 1 ≤ r := by
  obtain ⟨r, hr, hmem⟩ := bfsPhase_lookup_entry ns aes cs hv
  obtain ⟨_, _, hzero, _⟩ := bfsPhase_ok ns aes cs
  refine ⟨r, ranksOf_lookup_of_bfs ns aes cs hr, ?_⟩
  cases r with
  | succ n => omega
  | zero =>
    exfalso
    have hfalse : hasIncoming (filteredEdges ns aes cs) v = false := hzero _ hmem rfl
    have htrue := hasIncoming_of_mem he
    rw [htrue] at hfalse
    exact Bool.noConfusion hfalse

/-- Witness for the amended C5: in the diamond A→B→C, A→C, the reached edge
target B is assigned a strictly positive rank. -/
theorem reachable_edge_target_rank_positive_witness :
    ∃ r, alookup (ranksOf diamondNodes diamondEdges []) "B" = some r ∧ 1 ≤ r :=
  reachable_edge_target_rank_positive diamondNodes diamondEdges [] "A" "B"
    (by decide) (by decide)

/-! # Idempotence development (C3) -/

theorem foldl_proj_mono {α σ υ : Type} (proj : υ → List σ) (f : υ → α → υ)
    (hf : ∀ acc a, ∃ t, proj (f acc a) = proj acc ++ t) :
    ∀ (l : List α) (acc : υ), ∃ t, proj (l.foldl f acc) = proj acc ++ t := by
  intro l
  induction l with
  | nil => exact fun acc => ⟨[], by simp⟩
  | cons a as ih =>
    intro acc
    rw [List.foldl_cons]
    obtain ⟨t0, h0⟩ := hf acc a
    obtain ⟨t1, h1⟩ := ih (f acc a)
    exact ⟨t0 ++ t1, by rw [h1, h0, List.append_assoc]⟩

theorem foldl_proj_mem {α σ υ : Type} (proj : υ → List σ) (f : υ → α → υ)
    (hf : ∀ acc a, ∃ t, proj (f acc a) = proj acc ++ t) {x : σ}
    (l : List α) (acc : υ) (h : x ∈ proj acc) : x ∈ proj (l.foldl f acc) := by
  obtain ⟨t, ht⟩ := foldl_proj_mono proj f hf l acc
  rw [ht]
  exact List.mem_append_left _ h

theorem mem_dedupFirstAux {α : Type} [DecidableEq α] :
    ∀ (l : List α) (seen : List α) (x : α),
      x ∈ dedupFirstAux seen l ↔ x ∈ l ∧ x ∉ seen := by
  intro l
  induction l with
  | nil => intro seen x; simp [dedupFirstAux]
  | cons a as ih =>
    intro seen x
    unfold dedupFirstAux
    by_cases hc : seen.contains a = true
    · rw [if_pos hc, ih]
      constructor
      · rintro ⟨h1, h2⟩
        exact ⟨List.mem_cons_of_mem _ h1, h2⟩
      · rintro ⟨h1, h2⟩
        rcases List.mem_cons.mp h1 with rfl | h1
        · exact absurd (by simpa using hc) h2
        · exact ⟨h1, h2⟩
    · rw [if_neg hc]
      constructor
      · intro h
        rcases List.mem_cons.mp h with rfl | h
        · exact ⟨List.mem_cons_self _ _, by simpa using hc⟩
        · rw [ih] at h
          obtain ⟨h1, h2⟩ := h
          refine ⟨List.mem_cons_of_mem _ h1, fun hx => h2 ?_⟩
          exact List.mem_append_left _ hx
      · rintro ⟨h1, h2⟩
        rcases List.mem_cons.mp h1 with rfl | h1
        · exact List.mem_cons_self _ _
        · by_cases hxa : x = a
          · subst hxa
            exact List.mem_cons_self _ _
          · refine List.mem_cons_of_mem _ ?_
            rw [ih]
            refine ⟨h1, fun hx => ?_⟩
            rcases List.mem_append.mp hx with h | h
            · exact h2 h
            · exact hxa (List.mem_singleton.mp h)

theorem mem_dedupFirst {α : Type} [DecidableEq α] {l : List α} {x : α} :
    x ∈ dedupFirst l ↔ x ∈ l := by
  unfold dedupFirst
  rw [mem_dedupFirstAux]
  simp

theorem mem_gNodeIds_of_container {ns : List FragNode} {cs : List FragContainer}
    {c : FragContainer} (hc : c ∈ cs) : c.id ∈ gNodeIds ns cs := by
  unfold gNodeIds
  rw [mem_dedupFirst]
  exact List.mem_append_right _ (List.mem_map_of_mem _ hc)

theorem mem_gNodeIds_of_main {ns : List FragNode} {cs : List FragContainer}
    {id : String} (h : id ∈ mainNodeIds ns cs) : id ∈ gNodeIds ns cs := by
  unfold gNodeIds
  rw [mem_dedupFirst]
  exact List.mem_append_left _ h

theorem gNodeIds_cases {ns : List FragNode} {cs : List FragContainer} {id : String}
    (h : id ∈ gNodeIds ns cs) :
    id ∈ mainNodeIds ns cs ∨ ∃ c ∈ cs, c.id = id := by
  unfold gNodeIds at h
  rw [mem_dedupFirst] at h
  rcases List.mem_append.mp h with h | h
  · exact Or.inl h
  · right
    obtain ⟨c, hc, hid⟩ := List.mem_map.mp h
    exact ⟨c, hc, hid⟩

theorem alookup_bucket_update {rk : Nat} {id : String} :
    ∀ (m : List (Nat × List String)), (∃ b ∈ m, b.1 = rk) →
      ∃ v, alookup (m.map (fun b => if b.1 = rk then (b.1, b.2 ++ [id]) else b)) rk
        = some (v ++ [id]) := by
  intro m
  induction m with
  | nil => rintro ⟨b, hb, _⟩; simp at hb
  | cons p l ih =>
    rintro ⟨b, hb, hbrk⟩
    rw [List.map_cons]
    by_cases hp : p.1 = rk
    · rw [if_pos hp]
      refine ⟨p.2, ?_⟩
      rw [alookup_cons]
      dsimp only
      rw [if_pos hp]
    · rw [if_neg hp]
      rcases List.mem_cons.mp hb with rfl | hb
      · exact absurd hbrk hp
      · obtain ⟨v, hv⟩ := ih ⟨b, hb, hbrk⟩
        refine ⟨v, ?_⟩
        rw [alookup_cons, if_neg hp]
        exact hv

theorem alookup_bucket_update_other {rk rk' : Nat} {id : String} {b' : List String} :
    ∀ (m : List (Nat × List String)), alookup m rk' = some b' →
      alookup (m.map (fun b => if b.1 = rk then (b.1, b.2 ++ [id]) else b)) rk' = some b'
      ∨ alookup (m.map (fun b => if b.1 = rk then (b.1, b.2 ++ [id]) else b)) rk'
          = some (b' ++ [id]) := by
  intro m
  induction m with
  | nil => intro h; simp [alookup_nil] at h
  | cons p l ih =>
    intro h
    rw [alookup_cons] at h
    rw [List.map_cons]
    by_cases hp' : p.1 = rk'
    · rw [if_pos hp'] at h
      have hpb : p.2 = b' := by simpa using h
      by_cases hp : p.1 = rk
      · right
        rw [if_pos hp, alookup_cons]
        dsimp only
        rw [if_pos hp', hpb]
      · left
        rw [if_neg hp, alookup_cons, if_pos hp', hpb]
    · rw [if_neg hp'] at h
      by_cases hp : p.1 = rk
      · rw [if_pos hp]
        rcases ih h with h1 | h1
        · left
          rw [alookup_cons]
          dsimp only
          rw [if_neg hp']
          exact h1
        · right
          rw [alookup_cons]
          dsimp only
          rw [if_neg hp']
          exact h1
      · rw [if_neg hp]
        rcases ih h with h1 | h1
        · left
          rw [alookup_cons, if_neg hp']
          exact h1
        · right
          rw [alookup_cons, if_neg hp']
          exact h1

theorem addToRankMap_self (m : List (Nat × List String)) (rk : Nat) (id : String) :
    ∃ b, alookup (addToRankMap m rk id) rk = some b ∧ id ∈ b := by
  unfold addToRankMap
  by_cases h : m.any (fun b => b.1 = rk) = true
  · rw [if_pos h]
    obtain ⟨b, hb, hrk⟩ := List.any_eq_true.mp h
    obtain ⟨v, hv⟩ := alookup_bucket_update m ⟨b, hb, by simpa using hrk⟩
    exact ⟨v ++ [id], hv, List.mem_append_right _ (List.mem_singleton.mpr rfl)⟩
  · rw [if_neg h]
    have hk : rk ∉ m.map Prod.fst := by
      intro hmem
      obtain ⟨p, hp, hpk⟩ := List.mem_map.mp hmem
      exact h (List.any_eq_true.mpr ⟨p, hp, by simpa using hpk⟩)
    refine ⟨[id], ?_, List.mem_singleton.mpr rfl⟩
    rw [alookup_append_right _ hk, alookup_cons]
    simp

theorem addToRankMap_preserve {m : List (Nat × List String)} {rk' : Nat}
    {b : List String} (rk : Nat) (id : String) (h : alookup m rk' = some b) :
    ∃ b', alookup (addToRankMap m rk id) rk' = some b' ∧ ∀ x ∈ b, x ∈ b' := by
  unfold addToRankMap
  by_cases ha : m.any (fun q => q.1 = rk) = true
  · rw [if_pos ha]
    rcases alookup_bucket_update_other m h with h1 | h1
    · exact ⟨b, h1, fun x hx => hx⟩
    · exact ⟨b ++ [id], h1, fun x hx => List.mem_append_left _ hx⟩
  · rw [if_neg ha]
    exact ⟨b, alookup_append_left _ h, fun x hx => hx⟩

theorem rankFold_preserve (rks : List (String × Nat)) :
    ∀ (ids : List String) (m : List (Nat × List String)) (rk : Nat) (b : List String),
      alookup m rk = some b →
      ∃ b', alookup (ids.foldl (fun m id => addToRankMap m (rankLookup rks id) id) m) rk
          = some b' ∧ ∀ x ∈ b, x ∈ b' := by
  intro ids
  induction ids with
  | nil => exact fun m rk b h => ⟨b, h, fun x hx => hx⟩
  | cons a as ih =>
    intro m rk b h
    rw [List.foldl_cons]
    obtain ⟨b1, h1, hs1⟩ := addToRankMap_preserve (rankLookup rks a) a h
    obtain ⟨b2, h2, hs2⟩ := ih _ rk b1 h1
    exact ⟨b2, h2, fun x hx => hs2 x (hs1 x hx)⟩

theorem rankFold_covers (rks : List (String × Nat)) :
    ∀ (ids : List String) (m : List (Nat × List String)) (id : String), id ∈ ids →
      ∃ b, alookup (ids.foldl (fun m id => addToRankMap m (rankLookup rks id) id) m)
            (rankLookup rks id) = some b ∧ id ∈ b := by
  intro ids
  induction ids with
  | nil => intro m id h; simp at h
  | cons a as ih =>
    intro m id hm
    rw [List.foldl_cons]
    by_cases hia : id = a
    · subst hia
      obtain ⟨b, hb, hid⟩ := addToRankMap_self m (rankLookup rks id) id
      obtain ⟨b', hb', hs⟩ := rankFold_preserve rks as _ _ b hb
      exact ⟨b', hb', hs _ hid⟩
    · rcases List.mem_cons.mp hm with h | h
      · exact absurd h hia
      · exact ih _ id h

theorem rankMapOf_covers (ns : List FragNode) (aes : List (String × String))
    (cs : List FragContainer) {id : String} (h : id ∈ gNodeIds ns cs) :
    ∃ b, alookup (rankMapOf ns aes cs)
        (rankLookup (ranksOf ns aes cs) id) = some b ∧ id ∈ b :=
  rankFold_covers (ranksOf ns aes cs) (gNodeIds ns cs) [] id h

theorem rankFirstStep_fst_mono (ns : List FragNode) (cs : List FragContainer)
    (aes : List (String × String)) (ex : List (String × Pos))
    (acc : List (String × ContainerLayout) × Int × Int) (id : String) :
    ∃ t, (rankFirstStep ns cs aes ex acc id).1 = acc.1 ++ t := by
  unfold rankFirstStep
  cases hf : cs.find? (fun c => c.id = id) with
  | none =>
    cases hn : ns.find? (fun n => n.id = id) with
    | none => exact ⟨[], by simp⟩
    | some n => exact ⟨[], by simp⟩
  | some c => exact ⟨[(c.id, containerLayoutFor ns aes c)], rfl⟩

theorem rankSecondStep_fst_mono (ns : List FragNode) (cs : List FragContainer)
    (ex : List (String × Pos)) (cd : List (String × ContainerLayout))
    (ecnt : Nat) (y : Int) (acc : List (String × Pos) × Int) (id : String) :
    ∃ t, (rankSecondStep ns cs ex cd ecnt y acc id).1 = acc.1 ++ t := by
  unfold rankSecondStep
  cases hf : cs.find? (fun c => c.id = id) with
  | some c =>
    dsimp only
    cases he : alookup ex c.id with
    | some p => exact ⟨[(c.id, p)], rfl⟩
    | none =>
      dsimp only
      cases hcd : alookup cd c.id with
      | some cl => exact ⟨[(c.id, ⟨acc.2, y⟩)], rfl⟩
      | none => exact ⟨[], by simp⟩
  | none =>
    dsimp only
    cases hn : ns.find? (fun n => n.id = id) with
    | none => exact ⟨[], by simp⟩
    | some n =>
      dsimp only
      split
      · cases he : alookup ex id with
        | some p => exact ⟨[(id, p)], rfl⟩
        | none => exact ⟨[], by simp⟩
      · exact ⟨[(id, ⟨acc.2, y⟩)], rfl⟩

theorem layoutRankStep_pos_mono (rm : List (Nat × List String)) (ns : List FragNode)
    (cs : List FragContainer) (aes : List (String × String))
    (ex : List (String × Pos)) (ecnt : Nat)
    (st : List (String × Pos) × List (String × ContainerLayout) × Int) (rk : Nat) :
    ∃ t, (layoutRankStep rm ns cs aes ex ecnt st rk).1 = st.1 ++ t := by
  unfold layoutRankStep rankSecondPass
  dsimp only
  exact foldl_proj_mono (fun a : List (String × Pos) × Int => a.1) _
    (fun acc a => rankSecondStep_fst_mono ns cs ex _ ecnt st.2.2 acc a) _ _

theorem layoutRankStep_cd_mono (rm : List (Nat × List String)) (ns : List FragNode)
    (cs : List FragContainer) (aes : List (String × String))
    (ex : List (String × Pos)) (ecnt : Nat)
    (st : List (String × Pos) × List (String × ContainerLayout) × Int) (rk : Nat) :
    ∃ t, (layoutRankStep rm ns cs aes ex ecnt st rk).2.1 = st.2.1 ++ t := by
  unfold layoutRankStep rankFirstPass
  dsimp only
  exact foldl_proj_mono (fun a : List (String × ContainerLayout) × Int × Int => a.1) _
    (fun acc a => rankFirstStep_fst_mono ns cs aes ex acc a) _ _

theorem rankFirstPass_foldl_covers (ns : List FragNode) (cs : List FragContainer)
    (aes : List (String × String)) (ex : List (String × Pos)) :
    ∀ (nir : List String) (acc : List (String × ContainerLayout) × Int × Int)
      (id : String), id ∈ nir → (cs.find? (fun c => c.id = id)).isSome →
      id ∈ (nir.foldl (rankFirstStep ns cs aes ex) acc).1.map Prod.fst := by
  intro nir
  induction nir with
  | nil => intro acc id h; simp at h
  | cons a as ih =>
    intro acc id hm hf
    rw [List.foldl_cons]
    by_cases hia : id = a
    · subst hia
      obtain ⟨c, hc⟩ := Option.isSome_iff_exists.mp hf
      have hcid : c.id = id := by simpa using List.find?_some hc
      have hkey : id ∈ (rankFirstStep ns cs aes ex acc id).1.map Prod.fst := by
        unfold rankFirstStep
        rw [hc]
        dsimp only
        rw [List.map_append]
        exact List.mem_append_right _ (by simp [hcid])
      exact foldl_proj_mem
        (fun a : List (String × ContainerLayout) × Int × Int => a.1.map Prod.fst) _
        (fun acc' a' => by
          obtain ⟨t, ht⟩ := rankFirstStep_fst_mono ns cs aes ex acc' a'
          refine ⟨t.map Prod.fst, ?_⟩
          dsimp only
          rw [ht, List.map_append])
        as _ hkey
    · rcases List.mem_cons.mp hm with h | h
      · exact absurd h hia
      · exact ih _ id h hf

theorem rankSecondPass_foldl_covers (ns : List FragNode) (cs : List FragContainer)
    (ex : List (String × Pos)) (cd : List (String × ContainerLayout))
    (ecnt : Nat) (y : Int) :
    ∀ (nir : List String) (acc : List (String × Pos) × Int) (id : String),
      id ∈ nir →
      ((cs.find? (fun c => c.id = id)).isSome → (alookup cd id).isSome) →
      (cs.find? (fun c => c.id = id) = none → (ns.find? (fun n => n.id = id)).isSome) →
      id ∈ (nir.foldl (rankSecondStep ns cs ex cd ecnt y) acc).1.map Prod.fst := by
  intro nir
  induction nir with
  | nil => intro acc id h; simp at h
  | cons a as ih =>
    intro acc id hm h1 h2
    rw [List.foldl_cons]
    by_cases hia : id = a
    · subst hia
      have hkey : id ∈ (rankSecondStep ns cs ex cd ecnt y acc id).1.map Prod.fst := by
        unfold rankSecondStep
        cases hf : cs.find? (fun c => c.id = id) with
        | some c =>
          have hcid : c.id = id := by simpa using List.find?_some hf
          dsimp only
          cases he : alookup ex c.id with
          | some p =>
            dsimp only
            rw [List.map_append]
            exact List.mem_append_right _ (by simp [hcid])
          | none =>
            dsimp only
            have hcds : (alookup cd id).isSome := h1 (by rw [hf]; rfl)
            obtain ⟨cl, hcl⟩ := Option.isSome_iff_exists.mp hcds
            rw [hcid, hcl]
            dsimp only
            rw [List.map_append]
            exact List.mem_append_right _ (by simp [hcid])
        | none =>
          dsimp only
          obtain ⟨n, hn⟩ := Option.isSome_iff_exists.mp (h2 hf)
          rw [hn]
          dsimp only
          split
          · rename_i hcond
            obtain ⟨p, hp⟩ := Option.isSome_iff_exists.mp hcond.1
            rw [hp]
            dsimp only
            rw [List.map_append]
            exact List.mem_append_right _ (by simp)
          · dsimp only
            rw [List.map_append]
            exact List.mem_append_right _ (by simp)
      exact foldl_proj_mem (fun a : List (String × Pos) × Int => a.1.map Prod.fst) _
        (fun acc' a' => by
          obtain ⟨t, ht⟩ := rankSecondStep_fst_mono ns cs ex cd ecnt y acc' a'
          refine ⟨t.map Prod.fst, ?_⟩
          dsimp only
          rw [ht, List.map_append])
        as _ hkey
    · rcases List.mem_cons.mp hm with h | h
      · exact absurd h hia
      · exact ih _ id h h1 h2

theorem find?_isSome_of_exists {α : Type} {p : α → Bool} {l : List α}
    (h : ∃ x ∈ l, p x = true) : (l.find? p).isSome := by
  obtain ⟨x, hx, hp⟩ := h
  cases hf : l.find? p with
  | some _ => rfl
  | none => exact absurd hp (List.find?_eq_none.mp hf x hx)

theorem layoutRankStep_covers (rm : List (Nat × List String)) (ns : List FragNode)
    (cs : List FragContainer) (aes : List (String × String))
    (ex : List (String × Pos)) (ecnt : Nat)
    (st : List (String × Pos) × List (String × ContainerLayout) × Int)
    {rk : Nat} {id : String} {b : List String}
    (hb : alookup rm rk = some b) (hid : id ∈ b) (hg : id ∈ gNodeIds ns cs) :
    id ∈ (layoutRankStep rm ns cs aes ex ecnt st rk).1.map Prod.fst := by
  unfold layoutRankStep rankSecondPass
  dsimp only
  rw [hb]
  refine rankSecondPass_foldl_covers ns cs ex _ ecnt st.2.2 _ _ id
    (by simpa using hid) ?_ ?_
  · intro hfs
    apply alookup_isSome_of_mem_keys
    unfold rankFirstPass
    exact rankFirstPass_foldl_covers ns cs aes ex _ _ id (by simpa using hid) hfs
  · intro hnone
    rcases gNodeIds_cases hg with hmain | ⟨c, hc, hcid⟩
    · unfold mainNodeIds at hmain
      obtain ⟨n, hn, hnid⟩ := List.mem_map.mp hmain
      exact find?_isSome_of_exists ⟨n, List.mem_of_mem_filter hn, by simp [hnid]⟩
    · exact absurd (by simp [hcid]) (List.find?_eq_none.mp hnone c hc)

theorem layoutFold_pos_covers (rm : List (Nat × List String)) (ns : List FragNode)
    (cs : List FragContainer) (aes : List (String × String))
    (ex : List (String × Pos)) (ecnt : Nat) :
    ∀ (ranks : List Nat)
      (st : List (String × Pos) × List (String × ContainerLayout) × Int)
      {rk : Nat} {id : String} {b : List String}, rk ∈ ranks →
      alookup rm rk = some b → id ∈ b → id ∈ gNodeIds ns cs →
      id ∈ ((ranks.foldl (layoutRankStep rm ns cs aes ex ecnt) st).1.map Prod.fst) := by
  intro ranks
  induction ranks with
  | nil => intro st rk id b h; simp at h
  | cons r rs ih =>
    intro st rk id b hm hb hid hg
    rw [List.foldl_cons]
    by_cases hrr : rk = r
    · subst hrr
      have hkey := layoutRankStep_covers rm ns cs aes ex ecnt st hb hid hg
      exact foldl_proj_mem
        (fun a : List (String × Pos) × List (String × ContainerLayout) × Int =>
          a.1.map Prod.fst) _
        (fun acc' a' => by
          obtain ⟨t, ht⟩ := layoutRankStep_pos_mono rm ns cs aes ex ecnt acc' a'
          refine ⟨t.map Prod.fst, ?_⟩
          dsimp only
          rw [ht, List.map_append])
        rs _ hkey
    · rcases List.mem_cons.mp hm with h | h
      · exact absurd h hrr
      · exact ih _ h hb hid hg

theorem nodePositions_total (ns : List FragNode) (aes : List (String × String))
    (cs : List FragContainer) (exn : List FlowNode) {id : String}
    (hg : id ∈ gNodeIds ns cs) :
    id ∈ (layoutRanks (rankMapOf ns aes cs) ns cs exn aes).nodePositions.map Prod.fst := by
  obtain ⟨b, hb, hid⟩ := rankMapOf_covers ns aes cs hg
  have hkey : rankLookup (ranksOf ns aes cs) id ∈ (rankMapOf ns aes cs).map Prod.fst :=
    List.mem_map_of_mem Prod.fst (alookup_mem hb)
  have hasc : rankLookup (ranksOf ns aes cs) id
      ∈ stableSortByKey (fun rk : Nat => (rk : Int)) ((rankMapOf ns aes cs).map (·.1)) :=
    (stableSortByKey_perm _ _).mem_iff.mpr hkey
  unfold layoutRanks
  exact layoutFold_pos_covers _ ns cs aes _ _ _ _ hasc hb hid hg

theorem layoutFold_cd_covers (rm : List (Nat × List String)) (ns : List FragNode)
    (cs : List FragContainer) (aes : List (String × String))
    (ex : List (String × Pos)) (ecnt : Nat) :
    ∀ (ranks : List Nat)
      (st : List (String × Pos) × List (String × ContainerLayout) × Int)
      {rk : Nat} {id : String} {b : List String}, rk ∈ ranks →
      alookup rm rk = some b → id ∈ b → (cs.find? (fun c => c.id = id)).isSome →
      id ∈ ((ranks.foldl (layoutRankStep rm ns cs aes ex ecnt) st).2.1.map Prod.fst) := by
  intro ranks
  induction ranks with
  | nil => intro st rk id b h; simp at h
  | cons r rs ih =>
    intro st rk id b hm hb hid hfs
    rw [List.foldl_cons]
    by_cases hrr : rk = r
    · subst hrr
      have hkey : id ∈ (layoutRankStep rm ns cs aes ex ecnt st rk).2.1.map Prod.fst := by
        unfold layoutRankStep rankFirstPass
        dsimp only
        rw [hb]
        exact rankFirstPass_foldl_covers ns cs aes ex _ _ id (by simpa using hid) hfs
      exact foldl_proj_mem
        (fun a : List (String × Pos) × List (String × ContainerLayout) × Int =>
          a.2.1.map Prod.fst) _
        (fun acc' a' => by
          obtain ⟨t, ht⟩ := layoutRankStep_cd_mono rm ns cs aes ex ecnt acc' a'
          refine ⟨t.map Prod.fst, ?_⟩
          dsimp only
          rw [ht, List.map_append])
        rs _ hkey
    · rcases List.mem_cons.mp hm with h | h
      · exact absurd h hrr
      · exact ih _ h hb hid hfs

theorem containerData_total (ns : List FragNode) (aes : List (String × String))
    (cs : List FragContainer) (exn : List FlowNode) {c : FragContainer} (hc : c ∈ cs) :
    c.id ∈ (layoutRanks (rankMapOf ns aes cs) ns cs exn aes).containerData.map Prod.fst := by
  obtain ⟨b, hb, hid⟩ := rankMapOf_covers ns aes cs (mem_gNodeIds_of_container hc)
  have hkey : rankLookup (ranksOf ns aes cs) c.id ∈ (rankMapOf ns aes cs).map Prod.fst :=
    List.mem_map_of_mem Prod.fst (alookup_mem hb)
  have hasc : rankLookup (ranksOf ns aes cs) c.id
      ∈ stableSortByKey (fun rk : Nat => (rk : Int)) ((rankMapOf ns aes cs).map (·.1)) :=
    (stableSortByKey_perm _ _).mem_iff.mpr hkey
  unfold layoutRanks
  exact layoutFold_cd_covers _ ns cs aes _ _ _ _ hasc hb hid
    (find?_isSome_of_exists ⟨c, hc, by simp⟩)

theorem rankFirstStep_entries (ns : List FragNode) (cs : List FragContainer)
    (aes : List (String × String)) (ex : List (String × Pos))
    (acc : List (String × ContainerLayout) × Int × Int) (id : String) :
    ∀ p ∈ (rankFirstStep ns cs aes ex acc id).1, p ∈ acc.1
      ∨ ∃ c ∈ cs, c.id = p.1 ∧ p.2 = containerLayoutFor ns aes c := by
  unfold rankFirstStep
  cases hf : cs.find? (fun c => c.id = id) with
  | none =>
    cases hn : ns.find? (fun n => n.id = id) with
    | none => exact fun p hp => Or.inl hp
    | some n => exact fun p hp => Or.inl hp
  | some c =>
    intro p hp
    dsimp only at hp
    rcases List.mem_append.mp hp with h | h
    · exact Or.inl h
    · have hpe : p = (c.id, containerLayoutFor ns aes c) := List.mem_singleton.mp h
      subst hpe
      exact Or.inr ⟨c, List.mem_of_find?_eq_some hf, rfl, rfl⟩

theorem rankFirstFold_entries (ns : List FragNode) (cs : List FragContainer)
    (aes : List (String × String)) (ex : List (String × Pos)) :
    ∀ (nir : List String) (acc : List (String × ContainerLayout) × Int × Int),
      (∀ p ∈ acc.1, ∃ c ∈ cs, c.id = p.1 ∧ p.2 = containerLayoutFor ns aes c) →
      ∀ p ∈ (nir.foldl (rankFirstStep ns cs aes ex) acc).1,
        ∃ c ∈ cs, c.id = p.1 ∧ p.2 = containerLayoutFor ns aes c := by
  intro nir
  induction nir with
  | nil => exact fun acc h => h
  | cons a as ih =>
    intro acc h
    rw [List.foldl_cons]
    refine ih _ ?_
    intro p hp
    rcases rankFirstStep_entries ns cs aes ex acc a p hp with h1 | h1
    · exact h p h1
    · exact h1

theorem layoutFold_cd_entries (rm : List (Nat × List String)) (ns : List FragNode)
    (cs : List FragContainer) (aes : List (String × String))
    (ex : List (String × Pos)) (ecnt : Nat) :
    ∀ (ranks : List Nat)
      (st : List (String × Pos) × List (String × ContainerLayout) × Int),
      (∀ p ∈ st.2.1, ∃ c ∈ cs, c.id = p.1 ∧ p.2 = containerLayoutFor ns aes c) →
      ∀ p ∈ (ranks.foldl (layoutRankStep rm ns cs aes ex ecnt) st).2.1,
        ∃ c ∈ cs, c.id = p.1 ∧ p.2 = containerLayoutFor ns aes c := by
  intro ranks
  induction ranks with
  | nil => exact fun st h => h
  | cons r rs ih =>
    intro st h
    rw [List.foldl_cons]
    refine ih _ ?_
    intro p hp
    have hp' : p ∈ (((alookup rm r).getD []).foldl (rankFirstStep ns cs aes ex)
        (st.2.1, 0, seedCurrentX ((alookup rm r).getD []) ex ns cs ecnt)).1 := hp
    exact rankFirstFold_entries ns cs aes ex ((alookup rm r).getD [])
      (st.2.1, 0, seedCurrentX ((alookup rm r).getD []) ex ns cs ecnt) h p hp'

theorem containerData_entries (rm : List (Nat × List String)) (ns : List FragNode)
    (cs : List FragContainer) (aes : List (String × String)) (exn : List FlowNode) :
    ∀ p ∈ (layoutRanks rm ns cs exn aes).containerData,
      ∃ c ∈ cs, c.id = p.1 ∧ p.2 = containerLayoutFor ns aes c := by
  unfold layoutRanks
  exact layoutFold_cd_entries rm ns cs aes _ _ _ _ (by intro p hp; simp at hp)

theorem containerChildStep_fst_mono (acc : List (String × Pos) × Int × Int)
    (child : FragNode) :
    ∃ t, (containerChildStep acc child).1 = acc.1 ++ t :=
  ⟨[(child.id, ⟨CONTAINER_PADDING, acc.2.2⟩)], rfl⟩

theorem containerChildFold_covers :
    ∀ (l : List FragNode) (acc : List (String × Pos) × Int × Int) (x : FragNode),
      x ∈ l → x.id ∈ (l.foldl containerChildStep acc).1.map Prod.fst := by
  intro l
  induction l with
  | nil => intro acc x h; simp at h
  | cons a as ih =>
    intro acc x hm
    rw [List.foldl_cons]
    by_cases hxa : x = a
    · subst hxa
      have hkey : x.id ∈ (containerChildStep acc x).1.map Prod.fst := by
        unfold containerChildStep
        rw [List.map_append]
        exact List.mem_append_right _ (by simp)
      exact foldl_proj_mem
        (fun a : List (String × Pos) × Int × Int => a.1.map Prod.fst) _
        (fun acc' a' => by
          obtain ⟨t, ht⟩ := containerChildStep_fst_mono acc' a'
          refine ⟨t.map Prod.fst, ?_⟩
          dsimp only
          rw [ht, List.map_append])
        as _ hkey
    · rcases List.mem_cons.mp hm with h | h
      · exact absurd h hxa
      · exact ih _ x h

theorem childPositions_covers (childNodes : List FragNode)
    (childEdges : List (String × String)) {x : FragNode} (hx : x ∈ childNodes) :
    x.id ∈ (layoutContainerChildren childNodes childEdges).childPositions.map Prod.fst := by
  unfold layoutContainerChildren
  dsimp only
  have hx' : x ∈ sortedContainerChildren childNodes childEdges :=
    (sortedContainerChildren_perm childNodes childEdges).mem_iff.mpr hx
  exact containerChildFold_covers _ _ x hx'

theorem addEdgeFold_covers :
    ∀ (l : List FragEdge) (acc : List FlowEdge × List String) (e : FragEdge), e ∈ l →
      ("edge-" ++ e.source ++ "-" ++ e.target) ∈ (l.foldl addEdgeStep acc).2 := by
  intro l
  induction l with
  | nil => intro acc e h; simp at h
  | cons a as ih =>
    intro acc e hm
    rw [List.foldl_cons]
    by_cases hea : e = a
    · subst hea
      have hkey : ("edge-" ++ e.source ++ "-" ++ e.target) ∈ (addEdgeStep acc e).2 := by
        unfold addEdgeStep
        dsimp only
        split
        · exact List.mem_append_right _ (List.mem_singleton.mpr rfl)
        · rename_i hcond
          have hc : acc.2.contains ("edge-" ++ e.source ++ "-" ++ e.target) = true := by
            by_contra hx
            exact hcond hx
          simpa using hc
      exact foldl_proj_mem (fun a : List FlowEdge × List String => a.2) _
        (fun acc' a' => by
          obtain ⟨t, ht⟩ := addEdgeStep_append acc' a'
          exact ⟨t.map FlowEdge.id, by rw [ht]⟩)
        as _ hkey
    · rcases List.mem_cons.mp hm with h | h
      · exact absurd h hea
      · exact ih _ e h

theorem addEdgeFold_noop :
    ∀ (l : List FragEdge) (acc : List FlowEdge × List String),
      (∀ e ∈ l, ("edge-" ++ e.source ++ "-" ++ e.target) ∈ acc.2) →
      l.foldl addEdgeStep acc = acc := by
  intro l
  induction l with
  | nil => intro acc _; rfl
  | cons a as ih =>
    intro acc h
    rw [List.foldl_cons]
    have hstep : addEdgeStep acc a = acc := by
      unfold addEdgeStep
      dsimp only
      rw [if_neg (not_not_intro (by simpa using h a (List.mem_cons_self _ _)))]
    rw [hstep]
    exact ih acc (fun e' he' => h e' (List.mem_cons_of_mem _ he'))

theorem addNodeStep_styleBorder (lr : LayoutResult) (cs : List FragContainer)
    (acc : List FlowNode × List String) (node : FragNode) :
    ∀ r ∈ (addNodeStep lr cs acc node).1, r ∈ acc.1 ∨ r.styleBorder = false := by
  unfold addNodeStep
  cases hp : alookup lr.nodePositions node.id with
  | none => exact fun r hr => Or.inl hr
  | some pos =>
    dsimp only
    split
    · intro r hr
      rcases List.mem_append.mp hr with h | h
      · exact Or.inl h
      · have he : r = regularNodeRecord node pos := List.mem_singleton.mp h
        subst he
        exact Or.inr rfl
    · exact fun r hr => Or.inl hr

theorem addNodeFold_styleBorder (lr : LayoutResult) (cs : List FragContainer) :
    ∀ (l : List FragNode) (acc : List FlowNode × List String),
      ∀ r ∈ (l.foldl (addNodeStep lr cs) acc).1, r ∈ acc.1 ∨ r.styleBorder = false := by
  intro l
  induction l with
  | nil => exact fun acc r hr => Or.inl hr
  | cons a as ih =>
    intro acc r hr
    rw [List.foldl_cons] at hr
    rcases ih (addNodeStep lr cs acc a) r hr with h | h
    · exact addNodeStep_styleBorder lr cs acc a r h
    · exact Or.inr h

theorem addChildStep_styleBorder (cl : ContainerLayout) (cid : String)
    (acc : List FlowNode × List String) (x : String) :
    ∀ r ∈ (addChildStep cl cid acc x).1, r ∈ acc.1 ∨ r.styleBorder = false := by
  unfold addChildStep
  cases hp : alookup cl.childPositions x with
  | none => exact fun r hr => Or.inl hr
  | some cp =>
    dsimp only
    split
    · intro r hr
      rcases List.mem_append.mp hr with h | h
      · exact Or.inl h
      · have he : r = childNodeRecord x cp cid := List.mem_singleton.mp h
        subst he
        exact Or.inr rfl
    · exact fun r hr => Or.inl hr

theorem addChildFold_styleBorder (cl : ContainerLayout) (cid : String) :
    ∀ (l : List String) (acc : List FlowNode × List String),
      ∀ r ∈ (l.foldl (addChildStep cl cid) acc).1, r ∈ acc.1 ∨ r.styleBorder = false := by
  intro l
  induction l with
  | nil => exact fun acc r hr => Or.inl hr
  | cons a as ih =>
    intro acc r hr
    rw [List.foldl_cons] at hr
    rcases ih (addChildStep cl cid acc a) r hr with h | h
    · exact addChildStep_styleBorder cl cid acc a r h
    · exact Or.inr h

theorem addChildFold_covers (cl : ContainerLayout) (cid : String) :
    ∀ (l : List String) (acc : List FlowNode × List String) (x : String), x ∈ l →
      (alookup cl.childPositions x).isSome →
      x ∈ (l.foldl (addChildStep cl cid) acc).2 := by
  intro l
  induction l with
  | nil => intro acc x h; simp at h
  | cons a as ih =>
    intro acc x hm hs
    rw [List.foldl_cons]
    by_cases hxa : x = a
    · subst hxa
      have hkey : x ∈ (addChildStep cl cid acc x).2 := by
        unfold addChildStep
        obtain ⟨cp, hcp⟩ := Option.isSome_iff_exists.mp hs
        rw [hcp]
        dsimp only
        split
        · exact List.mem_append_right _ (List.mem_singleton.mpr rfl)
        · rename_i hcond
          have hc : acc.2.contains x = true := by
            by_contra hx
            exact hcond hx
          simpa using hc
      exact foldl_proj_mem (fun a : List FlowNode × List String => a.2) _
        (fun acc' a' => by
          obtain ⟨t, ht⟩ := addChildStep_append cl cid acc' a'
          exact ⟨t.map FlowNode.id, by rw [ht]⟩)
        as _ hkey
    · rcases List.mem_cons.mp hm with h | h
      · exact absurd h hxa
      · exact ih _ x h hs

theorem addNodeFold_noop (lr : LayoutResult) (cs : List FragContainer) :
    ∀ (l : List FragNode) (acc : List FlowNode × List String),
      (∀ n ∈ l, cs.any (fun c => c.childIds.contains n.id) = true
        ∨ (cs.map (·.id)).contains n.id = true) →
      l.foldl (addNodeStep lr cs) acc = acc := by
  intro l
  induction l with
  | nil => intro acc _; rfl
  | cons a as ih =>
    intro acc h
    rw [List.foldl_cons]
    have hstep : addNodeStep lr cs acc a = acc := by
      unfold addNodeStep
      cases hp : alookup lr.nodePositions a.id with
      | none => rfl
      | some pos =>
        dsimp only
        rw [if_neg]
        rintro ⟨h1, h2, _⟩
        rcases h a (List.mem_cons_self _ _) with hA | hB
        · exact h1 hA
        · exact h2 hB
    rw [hstep]
    exact ih acc (fun n hn => h n (List.mem_cons_of_mem _ hn))

theorem addNodeFold_covers (lr : LayoutResult) (cs : List FragContainer) :
    ∀ (l : List FragNode) (acc : List FlowNode × List String) (n : FragNode), n ∈ l →
      (alookup lr.nodePositions n.id).isSome →
      n.id ∈ (l.foldl (addNodeStep lr cs) acc).2
      ∨ cs.any (fun c => c.childIds.contains n.id) = true
      ∨ (cs.map (·.id)).contains n.id = true := by
  intro l
  induction l with
  | nil => intro acc n h; simp at h
  | cons a as ih =>
    intro acc n hm hs
    rw [List.foldl_cons]
    by_cases hna : n = a
    · subst hna
      obtain ⟨pos, hpos⟩ := Option.isSome_iff_exists.mp hs
      by_cases hA : cs.any (fun c => c.childIds.contains n.id) = true
      · exact Or.inr (Or.inl hA)
      · by_cases hB : (cs.map (·.id)).contains n.id = true
        · exact Or.inr (Or.inr hB)
        · left
          have hkey : n.id ∈ (addNodeStep lr cs acc n).2 := by
            unfold addNodeStep
            rw [hpos]
            dsimp only
            split
            · exact List.mem_append_right _ (List.mem_singleton.mpr rfl)
            · rename_i hcond
              have hC : acc.2.contains n.id = true := by
                by_contra hC
                exact hcond ⟨hA, hB, hC⟩
              simpa using hC
          exact foldl_proj_mem (fun a : List FlowNode × List String => a.2) _
            (fun acc' a' => by
              obtain ⟨t, ht⟩ := addNodeStep_append lr cs acc' a'
              exact ⟨t.map FlowNode.id, by rw [ht]⟩)
            as _ hkey
    · rcases List.mem_cons.mp hm with h | h
      · exact absurd h hna
      · exact ih _ n h hs

theorem addContainerFold_noop (lr : LayoutResult) :
    ∀ (l : List FragContainer) (acc : List FlowNode × List String),
      (∀ c ∈ l, c.id ∈ acc.2) → l.foldl (addContainerStep lr) acc = acc := by
  intro l
  induction l with
  | nil => intro acc _; rfl
  | cons a as ih =>
    intro acc h
    rw [List.foldl_cons]
    have hstep : addContainerStep lr acc a = acc := by
      unfold addContainerStep
      cases hp : alookup lr.nodePositions a.id with
      | none => rfl
      | some pos =>
        cases hcd : alookup lr.containerData a.id with
        | none => rfl
        | some cl =>
          dsimp only
          rw [if_neg (not_not_intro (by simpa using h a (List.mem_cons_self _ _)))]
    rw [hstep]
    exact ih acc (fun c hc => h c (List.mem_cons_of_mem _ hc))

theorem addContainerFold_covers (lr : LayoutResult) :
    ∀ (l : List FragContainer) (acc : List FlowNode × List String) (c : FragContainer),
      c ∈ l → (alookup lr.nodePositions c.id).isSome →
      (alookup lr.containerData c.id).isSome →
      c.id ∈ (l.foldl (addContainerStep lr) acc).2 := by
  intro l
  induction l with
  | nil => intro acc c h; simp at h
  | cons a as ih =>
    intro acc c hm h1 h2
    rw [List.foldl_cons]
    by_cases hca : c = a
    · subst hca
      obtain ⟨pos, hpos⟩ := Option.isSome_iff_exists.mp h1
      obtain ⟨cl, hcl⟩ := Option.isSome_iff_exists.mp h2
      have hkey : c.id ∈ (addContainerStep lr acc c).2 := by
        unfold addContainerStep
        rw [hpos, hcl]
        dsimp only
        split
        · refine foldl_proj_mem (fun a : List FlowNode × List String => a.2) _
            (fun acc' a' => by
              obtain ⟨t, ht⟩ := addChildStep_append cl c.id acc' a'
              exact ⟨t.map FlowNode.id, by rw [ht]⟩)
            c.childIds _ ?_
          exact List.mem_append_right _ (List.mem_singleton.mpr rfl)
        · rename_i hcond
          have hc : acc.2.contains c.id = true := by
            by_contra hx
            exact hcond hx
          simpa using hc
      exact foldl_proj_mem (fun a : List FlowNode × List String => a.2) _
        (fun acc' a' => by
          obtain ⟨t, ht⟩ := addContainerStep_append lr acc' a'
          exact ⟨t.map FlowNode.id, by rw [ht]⟩)
        as _ hkey
    · rcases List.mem_cons.mp hm with h | h
      · exact absurd h hca
      · exact ih _ c h h1 h2

theorem addContainerStep_borderInv (lr : LayoutResult) (clist : List FragContainer)
    (B0 : List String) (acc : List FlowNode × List String) (c : FragContainer)
    (hc : c ∈ clist) (hinv : BorderInv lr clist B0 acc) :
    BorderInv lr clist B0 (addContainerStep lr acc c) := by
  unfold addContainerStep
  cases hp : alookup lr.nodePositions c.id with
  | none => exact hinv
  | some pos =>
    cases hcd : alookup lr.containerData c.id with
    | none => exact hinv
    | some cl =>
      dsimp only
      split
      case isFalse => exact hinv
      case isTrue hnc =>
        intro r hr hb
        obtain ⟨t, ht⟩ := foldl_append_general FlowNode.id (addChildStep cl c.id)
          (addChildStep_append cl c.id) c.childIds
          (acc.1 ++ [containerNodeRecord c pos cl], acc.2 ++ [c.id])
        rcases addChildFold_styleBorder cl c.id c.childIds _ r hr with hr' | hfalse
        · rcases List.mem_append.mp hr' with hold | hnew
          · rcases hinv r hold hb with hB0 | ⟨c', cl', h1, h2, h3, h4⟩
            · exact Or.inl hB0
            · refine Or.inr ⟨c', cl', h1, h2, h3, fun x hx hs => ?_⟩
              rw [ht]
              dsimp only
              exact List.mem_append_left _ (List.mem_append_left _ (h4 x hx hs))
          · have hre : r = containerNodeRecord c pos cl := List.mem_singleton.mp hnew
            subst hre
            refine Or.inr ⟨c, cl, hc, rfl, hcd, fun x hx hs => ?_⟩
            exact addChildFold_covers cl c.id c.childIds _ x hx hs
        · rw [hfalse] at hb
          exact Bool.noConfusion hb

theorem addContainerFold_borderInv (lr : LayoutResult) (clist : List FragContainer)
    (B0 : List String) :
    ∀ (l : List FragContainer) (acc : List FlowNode × List String),
      (∀ c ∈ l, c ∈ clist) → BorderInv lr clist B0 acc →
      BorderInv lr clist B0 (l.foldl (addContainerStep lr) acc) := by
  intro l
  induction l with
  | nil => exact fun acc _ h => h
  | cons a as ih =>
    intro acc hsub h
    rw [List.foldl_cons]
    exact ih _ (fun c hc => hsub c (List.mem_cons_of_mem _ hc))
      (addContainerStep_borderInv lr clist B0 acc a (hsub a (List.mem_cons_self _ _)) h)

theorem addToGraph_explicit (frag : Fragment) (pfx : String) (s : CanvasState) :
    addToGraph frag pfx s =
      { nodes := ((containersToAddOf frag pfx s).foldl
          (addContainerStep (layoutOf frag pfx s))
          ((nodesToAddOf frag pfx s).foldl
            (addNodeStep (layoutOf frag pfx s) (allContainersOf frag pfx s))
            (s.nodes, s.nodes.map (·.id)))).1,
        edges := ((prefixedEdges frag pfx).foldl addEdgeStep
          (s.edges, s.edges.map (·.id))).1 } := rfl

theorem addToGraph_fold_pair (frag : Fragment) (pfx : String) (s : CanvasState) :
    ∃ t, ((containersToAddOf frag pfx s).foldl (addContainerStep (layoutOf frag pfx s))
      ((nodesToAddOf frag pfx s).foldl
        (addNodeStep (layoutOf frag pfx s) (allContainersOf frag pfx s))
        (s.nodes, s.nodes.map (·.id))))
      = (s.nodes ++ t, (s.nodes ++ t).map FlowNode.id) := by
  obtain ⟨t1, h1⟩ := foldl_append_general FlowNode.id
    (addNodeStep (layoutOf frag pfx s) (allContainersOf frag pfx s))
    (addNodeStep_append _ _) (nodesToAddOf frag pfx s) (s.nodes, s.nodes.map (·.id))
  obtain ⟨t2, h2⟩ := foldl_append_general FlowNode.id
    (addContainerStep (layoutOf frag pfx s)) (addContainerStep_append _)
    (containersToAddOf frag pfx s)
    ((nodesToAddOf frag pfx s).foldl
      (addNodeStep (layoutOf frag pfx s) (allContainersOf frag pfx s))
      (s.nodes, s.nodes.map (·.id)))
  refine ⟨t1 ++ t2, ?_⟩
  rw [h2, h1]
  dsimp only
  simp [List.append_assoc, List.map_append]

theorem addToGraph_edge_pair (frag : Fragment) (pfx : String) (s : CanvasState) :
    ∃ t, (prefixedEdges frag pfx).foldl addEdgeStep (s.edges, s.edges.map (·.id))
      = (s.edges ++ t, (s.edges ++ t).map FlowEdge.id) := by
  obtain ⟨t, h⟩ := foldl_append_general FlowEdge.id addEdgeStep addEdgeStep_append
    (prefixedEdges frag pfx) (s.edges, s.edges.map (·.id))
  refine ⟨t, ?_⟩
  rw [h]
  simp [List.map_append]

theorem existingContainerIds_sub (s : CanvasState) :
    ∀ x ∈ existingContainerIdsOf s, x ∈ s.nodes.map (·.id) := by
  intro x hx
  unfold existingContainerIdsOf at hx
  obtain ⟨r, hr, hid⟩ := List.mem_map.mp hx
  exact hid ▸ List.mem_map_of_mem _ (List.mem_of_mem_filter hr)

theorem existingContainerIds_mono (frag : Fragment) (pfx : String) (s : CanvasState) :
    ∀ x ∈ existingContainerIdsOf s, x ∈ existingContainerIdsOf (addToGraph frag pfx s) := by
  intro x hx
  unfold existingContainerIdsOf at hx ⊢
  obtain ⟨r, hr, hid⟩ := List.mem_map.mp hx
  have hr1 : r ∈ s.nodes := List.mem_of_mem_filter hr
  have hrb := List.of_mem_filter hr
  exact List.mem_map.mpr
    ⟨r, List.mem_filter.mpr ⟨addToGraph_nodes_mem frag pfx hr1, hrb⟩, hid⟩

theorem layoutOf_pos_total (frag : Fragment) (pfx : String) (s : CanvasState)
    {id : String}
    (hg : id ∈ gNodeIds (allNodesOf frag pfx s) (allContainersOf frag pfx s)) :
    (alookup (layoutOf frag pfx s).nodePositions id).isSome := by
  apply alookup_isSome_of_mem_keys
  unfold layoutOf
  exact nodePositions_total _ _ _ _ hg

theorem layoutOf_cd_total (frag : Fragment) (pfx : String) (s : CanvasState)
    {c : FragContainer} (hc : c ∈ allContainersOf frag pfx s) :
    (alookup (layoutOf frag pfx s).containerData c.id).isSome := by
  apply alookup_isSome_of_mem_keys
  unfold layoutOf
  exact containerData_total _ _ _ _ hc

theorem allContainers_split (frag : Fragment) (pfx : String) (s : CanvasState)
    {d : FragContainer} (hd : d ∈ allContainersOf frag pfx s) :
    d.id ∈ existingContainerIdsOf s ∨ d ∈ containersToAddOf frag pfx s := by
  unfold allContainersOf at hd
  rcases List.mem_append.mp hd with h | h
  · left
    obtain ⟨r, hr, hre⟩ := List.mem_map.mp h
    subst hre
    exact List.mem_map.mpr ⟨r, hr, rfl⟩
  · exact Or.inr h

theorem allContainers_child_cases (frag : Fragment) (pfx : String) (s : CanvasState)
    {d : FragContainer} {x : String}
    (hd : d ∈ allContainersOf frag pfx s) (hx : x ∈ d.childIds) :
    x ∈ s.nodes.map (·.id) ∨ d ∈ containersToAddOf frag pfx s := by
  unfold allContainersOf at hd
  rcases List.mem_append.mp hd with h | h
  · left
    obtain ⟨r, hr, hre⟩ := List.mem_map.mp h
    subst hre
    obtain ⟨ch, hch, hchid⟩ := List.mem_map.mp hx
    exact hchid ▸ List.mem_map_of_mem _ (List.mem_of_mem_filter hch)
  · exact Or.inr h

theorem containersToAdd_ids_nodup (frag : Fragment) (pfx : String) (s : CanvasState)
    (hnd : (frag.containers.map (·.id)).Nodup) :
    ((containersToAddOf frag pfx s).map (·.id)).Nodup := by
  have hinj : Function.Injective (fun i : String => pfx ++ i) := by
    intro a b hab
    have h := congrArg (fun x => replaceOnce x pfx) hab
    simpa [replaceOnce_prefixed] using h
  have h1 : (prefixedContainers frag pfx).map (fun c => c.id)
      = (frag.containers.map (fun c => c.id)).map (fun i => pfx ++ i) := by
    unfold prefixedContainers
    rw [List.map_map, List.map_map]
    rfl
  have h2 : ((prefixedContainers frag pfx).map (fun c => c.id)).Nodup := by
    rw [h1]
    exact hnd.map hinj
  have hsub : List.Sublist (containersToAddOf frag pfx s) (prefixedContainers frag pfx) :=
    List.filter_sublist _
  exact List.Nodup.sublist (hsub.map (fun c => c.id)) h2

theorem addToGraph_prefixed_edge_ids (frag : Fragment) (pfx : String) (s : CanvasState) :
    ∀ e ∈ prefixedEdges frag pfx,
      ("edge-" ++ e.source ++ "-" ++ e.target)
        ∈ (addToGraph frag pfx s).edges.map (·.id) := by
  intro e he
  obtain ⟨t, ht⟩ := addToGraph_edge_pair frag pfx s
  have h1 := addEdgeFold_covers (prefixedEdges frag pfx)
    (s.edges, s.edges.map (·.id)) e he
  rw [ht] at h1
  dsimp only at h1
  have he2 : (addToGraph frag pfx s).edges = s.edges ++ t := by
    have h0 : (addToGraph frag pfx s).edges
        = ((prefixedEdges frag pfx).foldl addEdgeStep (s.edges, s.edges.map (·.id))).1 :=
      rfl
    rw [h0, ht]
  rw [he2]
  exact h1

theorem addToGraph_container_ids_present (frag : Fragment) (pfx : String)
    (s : CanvasState) :
    ∀ c ∈ containersToAddOf frag pfx s,
      c.id ∈ (addToGraph frag pfx s).nodes.map (·.id) := by
  intro c hc
  have hc' : c ∈ allContainersOf frag pfx s := List.mem_append_right _ hc
  have h1 := addContainerFold_covers (layoutOf frag pfx s)
    (containersToAddOf frag pfx s)
    ((nodesToAddOf frag pfx s).foldl
      (addNodeStep (layoutOf frag pfx s) (allContainersOf frag pfx s))
      (s.nodes, s.nodes.map (·.id)))
    c hc
    (layoutOf_pos_total frag pfx s (mem_gNodeIds_of_container hc'))
    (layoutOf_cd_total frag pfx s hc')
  obtain ⟨t, ht⟩ := addToGraph_fold_pair frag pfx s
  rw [ht] at h1
  dsimp only at h1
  have he2 : (addToGraph frag pfx s).nodes = s.nodes ++ t := by
    have h0 : (addToGraph frag pfx s).nodes
        = ((containersToAddOf frag pfx s).foldl (addContainerStep (layoutOf frag pfx s))
            ((nodesToAddOf frag pfx s).foldl
              (addNodeStep (layoutOf frag pfx s) (allContainersOf frag pfx s))
              (s.nodes, s.nodes.map (·.id)))).1 := rfl
    rw [h0, ht]
  rw [he2]
  exact h1

theorem addToGraph_borderInv (frag : Fragment) (pfx : String) (s : CanvasState) :
    BorderInv (layoutOf frag pfx s) (containersToAddOf frag pfx s)
      (existingContainerIdsOf s)
      ((containersToAddOf frag pfx s).foldl (addContainerStep (layoutOf frag pfx s))
        ((nodesToAddOf frag pfx s).foldl
          (addNodeStep (layoutOf frag pfx s) (allContainersOf frag pfx s))
          (s.nodes, s.nodes.map (·.id)))) := by
  apply addContainerFold_borderInv _ _ _ _ _ (fun c hc => hc)
  intro r hr hb
  rcases addNodeFold_styleBorder (layoutOf frag pfx s) (allContainersOf frag pfx s)
      (nodesToAddOf frag pfx s) (s.nodes, s.nodes.map (·.id)) r hr with h | h
  · left
    unfold existingContainerIdsOf
    exact List.mem_map.mpr ⟨r, List.mem_filter.mpr ⟨h, hb⟩, rfl⟩
  · rw [h] at hb
    exact Bool.noConfusion hb

theorem addToGraph_blocked_nodes (frag : Fragment) (pfx : String) (s : CanvasState)
    (hnd : (frag.containers.map (·.id)).Nodup) :
    ∀ n ∈ nodesToAddOf frag pfx s,
      n.id ∉ (addToGraph frag pfx s).nodes.map (·.id) →
      (allContainersOf frag pfx (addToGraph frag pfx s)).any
          (fun c => c.childIds.contains n.id) = true
        ∨ ((allContainersOf frag pfx (addToGraph frag pfx s)).map (·.id)).contains n.id
            = true := by
  intro n hn hnotin
  have hnids : n.id ∉ s.nodes.map (·.id) := by
    have hfp := List.of_mem_filter hn
    simp at hfp
    intro hmem
    obtain ⟨r, hr, hrid⟩ := List.mem_map.mp hmem
    exact hfp r hr hrid
  obtain ⟨tP, htP⟩ := addToGraph_fold_pair frag pfx s
  have hnodesEq : (addToGraph frag pfx s).nodes = s.nodes ++ tP := by
    have h0 : (addToGraph frag pfx s).nodes
        = ((containersToAddOf frag pfx s).foldl (addContainerStep (layoutOf frag pfx s))
            ((nodesToAddOf frag pfx s).foldl
              (addNodeStep (layoutOf frag pfx s) (allContainersOf frag pfx s))
              (s.nodes, s.nodes.map (·.id)))).1 := rfl
    rw [h0, htP]
  have hAB : (allContainersOf frag pfx s).any (fun c => c.childIds.contains n.id) = true
      ∨ ((allContainersOf frag pfx s).map (·.id)).contains n.id = true := by
    by_cases hA : (allContainersOf frag pfx s).any
        (fun c => c.childIds.contains n.id) = true
    · exact Or.inl hA
    · have hmain : n.id ∈ mainNodeIds (allNodesOf frag pfx s)
          (allContainersOf frag pfx s) := by
        unfold mainNodeIds
        refine List.mem_map.mpr ⟨n, List.mem_filter.mpr ⟨?_, ?_⟩, rfl⟩
        · unfold allNodesOf
          exact List.mem_append_right _ hn
        · simpa using hA
      have hpos := layoutOf_pos_total frag pfx s (mem_gNodeIds_of_main hmain)
      rcases addNodeFold_covers (layoutOf frag pfx s) (allContainersOf frag pfx s)
          (nodesToAddOf frag pfx s) (s.nodes, s.nodes.map (·.id)) n hn hpos
        with hin | hA' | hB'
      · exfalso
        apply hnotin
        have hin2 : n.id ∈ ((containersToAddOf frag pfx s).foldl
            (addContainerStep (layoutOf frag pfx s))
            ((nodesToAddOf frag pfx s).foldl
              (addNodeStep (layoutOf frag pfx s) (allContainersOf frag pfx s))
              (s.nodes, s.nodes.map (·.id)))).2 :=
          foldl_proj_mem (fun a : List FlowNode × List String => a.2) _
            (fun acc' a' => by
              obtain ⟨t, ht⟩ := addContainerStep_append (layoutOf frag pfx s) acc' a'
              exact ⟨t.map FlowNode.id, by rw [ht]⟩)
            (containersToAddOf frag pfx s) _ hin
        rw [htP] at hin2
        dsimp only at hin2
        rw [hnodesEq]
        exact hin2
      · exact absurd hA' hA
      · exact Or.inr hB'
  rcases hAB with hA | hB
  · obtain ⟨d, hd, hdc⟩ := List.any_eq_true.mp hA
    have hdc' : n.id ∈ d.childIds := by simpa using hdc
    rcases allContainers_child_cases frag pfx s hd hdc' with hxs | hdnew
    · exact absurd hxs hnids
    · have hdnotB : d.id ∉ existingContainerIdsOf s := by
        simpa using List.of_mem_filter hdnew
      have hnb : d.id ∉ existingContainerIdsOf (addToGraph frag pfx s) := by
        intro hmem
        unfold existingContainerIdsOf at hmem
        obtain ⟨r, hr, hrid⟩ := List.mem_map.mp hmem
        have hr1 : r ∈ (addToGraph frag pfx s).nodes := List.mem_of_mem_filter hr
        have hrb : r.styleBorder = true := List.of_mem_filter hr
        have hr2 : r ∈ ((containersToAddOf frag pfx s).foldl
            (addContainerStep (layoutOf frag pfx s))
            ((nodesToAddOf frag pfx s).foldl
              (addNodeStep (layoutOf frag pfx s) (allContainersOf frag pfx s))
              (s.nodes, s.nodes.map (·.id)))).1 := hr1
        rcases addToGraph_borderInv frag pfx s r hr2 hrb
          with hB0 | ⟨c', cl', h1, h2, h3, h4⟩
        · rw [hrid] at hB0
          exact hdnotB hB0
        · have hcid : c'.id = d.id := by rw [h2, hrid]
          have hceq : c' = d :=
            List.inj_on_of_nodup_map (containersToAdd_ids_nodup frag pfx s hnd)
              h1 hdnew hcid
          rw [hceq] at h3 h4
          have hmem3 := alookup_mem h3
          obtain ⟨c'', hc''mem, hcid'', hcl''⟩ :=
            containerData_entries
              (rankMapOf (allNodesOf frag pfx s) (allEdgesOf frag pfx s)
                (allContainersOf frag pfx s))
              (allNodesOf frag pfx s) (allContainersOf frag pfx s)
              (allEdgesOf frag pfx s) s.nodes (d.id, cl') hmem3
          rcases allContainers_split frag pfx s hc''mem with hcold | hcnew
          · rw [hcid''] at hcold
            exact hdnotB hcold
          · have hceq2 : c'' = d :=
              List.inj_on_of_nodup_map (containersToAdd_ids_nodup frag pfx s hnd)
                hcnew hdnew (by simpa using hcid'')
            rw [hceq2] at hcl''
            have hclv : cl' = containerLayoutFor (allNodesOf frag pfx s)
                (allEdgesOf frag pfx s) d := by simpa using hcl''
            have hnchild : n ∈ (allNodesOf frag pfx s).filter
                (fun q => d.childIds.contains q.id) := by
              refine List.mem_filter.mpr ⟨?_, by simpa using hdc'⟩
              unfold allNodesOf
              exact List.mem_append_right _ hn
            have hsome : (alookup cl'.childPositions n.id).isSome := by
              rw [hclv]
              apply alookup_isSome_of_mem_keys
              unfold containerLayoutFor
              exact childPositions_covers _ _ hnchild
            have hin := h4 n.id hdc' hsome
            rw [htP] at hin
            dsimp only at hin
            apply hnotin
            rw [hnodesEq]
            exact hin
      have hdnew' : d ∈ containersToAddOf frag pfx (addToGraph frag pfx s) := by
        refine List.mem_filter.mpr ⟨List.mem_of_mem_filter hdnew, ?_⟩
        simpa using hnb
      left
      exact List.any_eq_true.mpr
        ⟨d, List.mem_append_right _ hdnew', by simpa using hdc'⟩
  · have hBmem : n.id ∈ (allContainersOf frag pfx s).map (·.id) := by simpa using hB
    obtain ⟨e, he, heid⟩ := List.mem_map.mp hBmem
    rcases allContainers_split frag pfx s he with hold | henew
    · rw [heid] at hold
      exact absurd (existingContainerIds_sub s _ hold) hnids
    · have hensb : e.id ∉ existingContainerIdsOf (addToGraph frag pfx s) := by
        intro hmem
        apply hnotin
        rw [← heid]
        exact existingContainerIds_sub (addToGraph frag pfx s) _ hmem
      have henew' : e ∈ containersToAddOf frag pfx (addToGraph frag pfx s) :=
        List.mem_filter.mpr ⟨List.mem_of_mem_filter henew, by simpa using hensb⟩
      right
      have hm2 : n.id ∈ (allContainersOf frag pfx (addToGraph frag pfx s)).map (·.id) :=
        List.mem_map.mpr ⟨e, List.mem_append_right _ henew', heid⟩
      simpa using hm2

/-- **C3** — Idempotence of re-insertion: inserting the same fragment with the
same prefix twice yields the same canvas state (node list, edge list,
positions) as inserting it once — every node, container and edge whose derived
identity already exists is skipped without changing any collection.  The
hypothesis that the fragment's container ids are duplicate-free is the spec's
own well-formedness assumption ("IDs are unique within one fragment"); with a
duplicated container id the second copy's children can be re-ranked as
top-level nodes on re-insertion and the property genuinely fails. -/
theorem reinsertion_idempotent (frag : Fragment) (pfx : String) (s : CanvasState)
    (hnd : (frag.containers.map (·.id)).Nodup) :
    addToGraph frag pfx (addToGraph frag pfx s) = addToGraph frag pfx s := by
  have hnodes : (nodesToAddOf frag pfx (addToGraph frag pfx s)).foldl
      (addNodeStep (layoutOf frag pfx (addToGraph frag pfx s))
        (allContainersOf frag pfx (addToGraph frag pfx s)))
      ((addToGraph frag pfx s).nodes, (addToGraph frag pfx s).nodes.map (·.id))
      = ((addToGraph frag pfx s).nodes, (addToGraph frag pfx s).nodes.map (·.id)) := by
    apply addNodeFold_noop
    intro n hn
    have hpfx : n ∈ prefixedNodes frag pfx := List.mem_of_mem_filter hn
    have hnot' : n.id ∉ (addToGraph frag pfx s).nodes.map (·.id) := by
      have hfp := List.of_mem_filter hn
      simp at hfp
      intro hmem
      obtain ⟨r, hr, hrid⟩ := List.mem_map.mp hmem
      exact hfp r hr hrid
    have hnS : n ∈ nodesToAddOf frag pfx s := by
      refine List.mem_filter.mpr ⟨hpfx, ?_⟩
      suffices hx : n.id ∉ s.nodes.map (·.id) by simpa using hx
      intro hx
      apply hnot'
      obtain ⟨r, hr, hrid⟩ := List.mem_map.mp hx
      exact hrid ▸ List.mem_map_of_mem _ (addToGraph_nodes_mem frag pfx hr)
    exact addToGraph_blocked_nodes frag pfx s hnd n hnS hnot'
  have hconts : (containersToAddOf frag pfx (addToGraph frag pfx s)).foldl
      (addContainerStep (layoutOf frag pfx (addToGraph frag pfx s)))
      ((addToGraph frag pfx s).nodes, (addToGraph frag pfx s).nodes.map (·.id))
      = ((addToGraph frag pfx s).nodes, (addToGraph frag pfx s).nodes.map (·.id)) := by
    apply addContainerFold_noop
    intro c hc
    have hcS : c ∈ containersToAddOf frag pfx s := by
      refine List.mem_filter.mpr ⟨List.mem_of_mem_filter hc, ?_⟩
      suffices hx : c.id ∉ existingContainerIdsOf s by simpa using hx
      intro hx
      have hx' := existingContainerIds_mono frag pfx s _ hx
      have hfp := List.of_mem_filter hc
      simp at hfp
      exact hfp hx'
    exact addToGraph_container_ids_present frag pfx s c hcS
  have hedges : (prefixedEdges frag pfx).foldl addEdgeStep
      ((addToGraph frag pfx s).edges, (addToGraph frag pfx s).edges.map (·.id))
      = ((addToGraph frag pfx s).edges, (addToGraph frag pfx s).edges.map (·.id)) := by
    apply addEdgeFold_noop
    intro e he
    exact addToGraph_prefixed_edge_ids frag pfx s e he
  rw [addToGraph_explicit frag pfx (addToGraph frag pfx s), hnodes, hconts, hedges]

/-- Witness for C3: re-inserting the three-node fragment with the `grp`
container (prefix `p0_`) into the empty canvas is a no-op the second time. -/
theorem reinsertion_idempotent_witness :
    addToGraph idemFrag "p0_" (addToGraph idemFrag "p0_" {}) =
      addToGraph idemFrag "p0_" {} :=
  reinsertion_idempotent idemFrag "p0_" {} (by decide)

/-- **C10** (amended) — Append-only frame property of the part_001
`addToGraph`: the output node and edge collections are exactly the input
collections with new records appended at the end, so every pre-existing node
and edge record survives with all of its fields unchanged.  (The share-nodes
App.vue variant is the exception recorded by the counterexample.) -/
theorem addToGraph_append_only_frame (frag : Fragment) (pfx : String) (s : CanvasState) :
    ∃ appendedNodes appendedEdges,
      (addToGraph frag pfx s).nodes = s.nodes ++ appendedNodes
      ∧ (addToGraph frag pfx s).edges = s.edges ++ appendedEdges := by
  obtain ⟨t1, h1⟩ := addToGraph_nodes_structure frag pfx s
  obtain ⟨t2, h2⟩ := addToGraph_edges_structure frag pfx s
  exact ⟨t1, t2, h1, h2⟩

end VueFlow
